import Mathlib

/-!
Verification of the namedstruct value model and packing engine (src/values.py).

Bytes are modelled as natural numbers (values below 256), byte strings as
`List Nat`.  Packing a value returns a pair (immediate data, offseted data),
mirroring `Value.pack(dataOffset)` in the source; Python exceptions are
modelled by `Option` (a raised exception is `none`).

The repository files `types.py`, `bithelper.py` and `namedstruct.py` are not
part of the sources; the few operations of theirs that `values.py` calls
(little-endian integer packing, `requiredBits`, `toBits`, `packBitsToChars`,
type alignment, type merging and the top-level `namedstruct.pack`) are
modelled from the spec, each marked in its doc comment.
-/

namespace NamedStruct

/-- Modelled from the spec: `types.IntType.pack` (from the missing `types.py`).
All multi-byte integers are encoded little-endian at their byte width
(spec sections 4.2 and 6). -/
def packIntLE (width value : Nat) : List Nat :=
  (List.range width).map fun i => value / 256 ^ i % 256

/-- Little-endian decoding, used to read pointers back out of packed buffers. -/
def decodeIntLE (bytes : List Nat) : Nat :=
  bytes.foldr (fun b acc => acc * 256 + b) 0

/-- Halving recursion (with fuel, for kernel-reducibility) counting the
binary digits of a number. -/
def requiredBitsAux : Nat → Nat → Nat
  | 0, _ => 0
  | fuel + 1, n => if n = 0 then 0 else requiredBitsAux fuel (n / 2) + 1

/-- Modelled from the spec: `bithelper.requiredBits` (from the missing
`bithelper.py`): the number of bits required to represent an integer value
— its binary digit count, 0 for 0 (spec section 4.2, BitFieldArray: "bits
required for an integer field's value"). -/
def requiredBits (n : Nat) : Nat :=
  requiredBitsAux n n

/-- Modelled from the spec: `bithelper.toBits(value, numBits)` (from the
missing `bithelper.py`): the value bit-packed LSB-first to the given width
(spec section 4.2: "each field individually bit-packed LSB-first"). -/
def toBits (value numBits : Nat) : List Nat :=
  (List.range numBits).map fun i => value / 2 ^ i % 2

/-- Modelled from the spec: `bithelper.packBitsToChars` (from the missing
`bithelper.py`): a bit sequence packed into bytes, least-significant-bit
first within each byte, the last byte zero-padded (spec section 4.2, Blob:
"bit i of byte = blob[8*byteIndex + i]"). -/
def packBitsToChars (bits : List Nat) : List Nat :=
  (List.range ((bits.length + 7) / 8)).map fun b =>
    (List.range 8).foldr (fun i acc => acc * 2 + bits.getD (8 * b + i) 0) 0

/-- A value stored in a `BitFieldArray` entry: each entry slot is
`(isBlob, value)` in the source, a `Blob` (kept as its bit list) or a
non-negative integer. -/
inductive BFV where
  | blob (bits : List Nat)
  | intv (n : Nat)
deriving DecidableEq, Repr

/-- The shape of a value's type, as far as the merge rules of the missing
`types.py` need it (spec section 3's type variants): integers and chars by
their byte width, `BitField`/`Struct`/`BitFieldArray` types by their
declared name (spec section 4.1: "identical-name Structs/BitFields merge to
themselves"), array types by their element type shape and declared fixed
length, references by kind alone (any `Reference` operand fails to merge,
so no payload is ever inspected). -/
inductive VType where
  | nullT
  | primT (width : Nat)
  | bitFieldT (name : String) (bitWidth : Nat)
  | refT
  | simpleArrT (elem : VType) (fixedLength : Option Nat)
  | refArrT (elem : VType) (fixedLength : Option Nat) (ptrBitWidth : Nat)
  | strctT (name : String)
  | bfArrayT (name : String)
deriving DecidableEq, Repr

/-- The value tree of `values.py`.  Constructors mirror the source classes:
* `null` — class `Null` (no `pack` of its own: packing it raises);
* `prim` — `PrimitiveValue` (`Int`, `Char`, `Padding`): an already
  validated payload packing to `width` bytes little-endian;
* `bitField` — class `BitField`: the `BitFieldType` name, container bit
  width, field widths and field values in declaration order;
* `ref` — class `Reference`: pointer width in bytes
  (`referenceBitWidth/8`), target value (`null` for a null reference);
* `simpleArrV` — `SimpleArray` whose elements are `Value` objects
  (`elementsAreValueObjects == True`), with the element type's shape
  (`elemType`, what `SimpleArrayType` holds) and width;
* `simpleArrP` — `SimpleArray` over plain python values, each packed by the
  element type to `elemWidth` bytes;
* `refArr` — `ReferenceArray`: the merged element type shape
  (`ReferenceArrayType`s `elementType`), and a `values` list holding the
  `Reference` wrappers built by the constructor;
* `strct` — class `Struct`: the `StructType` name and the member value
  list (padding members included, as the source inserts them);
* `bfArray` — class `BitFieldArray`: the type name, declared field count
  and entries. -/
inductive Value where
  | null
  | prim (width value : Nat)
  | bitField (name : String) (bitWidth : Nat) (fieldWidths fieldValues : List Nat)
  | ref (ptrWidth8 : Nat) (target : Value)
  | simpleArrV (elemType : VType) (elemWidth : Nat) (byteAlign : Option Nat)
      (fixedSize : Option Nat) (elems : List Value)
  | simpleArrP (elemType : VType) (elemWidth : Nat) (byteAlign : Option Nat)
      (fixedSize : Option Nat) (elems : List Nat)
  | refArr (elemType : VType) (ptrWidth8 : Nat) (fixedSize : Option Nat)
      (elems : List Value)
  | strct (name : String) (members : List Value)
  | bfArray (name : String) (numFields : Nat) (entries : List (List BFV))

/-- `BitFieldArray.getFieldLengths` helper: the bit length one entry slot
contributes for a field — the blob bit length for a blob slot, otherwise the
bits required for the integer (source lines 619-623). -/
def fieldBits (f : Nat) (entry : List BFV) : Nat :=
  match entry.getD f (.intv 0) with
  | .blob bits => bits.length
  | .intv n => requiredBits n

/-- `BitFieldArray.getFieldLengths` (source lines 615-624): for every field,
the maximum over all entries of the bits its value needs; all zero when there
are no entries. -/
def getFieldLengths (numFields : Nat) (entries : List (List BFV)) : List Nat :=
  if entries = [] then List.replicate numFields 0
  else (List.range numFields).map fun f => (entries.map (fieldBits f)).foldl max 0

/-- The bits one `BitFieldArray` entry contributes to the data blob (source
lines 669-675): fields in declaration order, a blob copied verbatim and
zero-padded to the field length, an integer bit-packed LSB-first to the field
length.  The source iterates `enumerate(entry)` indexing `fieldLengths[i]`;
entries always have exactly `numFields` slots (asserted in `add`), under
which the zip below is the same iteration. -/
def entryBits (fieldLengths : List Nat) (entry : List BFV) : List Nat :=
  (entry.zip fieldLengths).flatMap fun p =>
    match p.1 with
    | .blob bits => bits ++ List.replicate (p.2 - bits.length) 0
    | .intv n => toBits n p.2

/-- The header value list `BitFieldArray.pack` builds (source lines 663-664):
total bits per entry, then for `i` in `0..F` the header bit length
`(F+2)*16` plus the exclusive prefix sum of the field lengths. -/
def bfaHeaderValues (numFields : Nat) (fieldLengths : List Nat) : List Nat :=
  fieldLengths.sum ::
    (List.range (numFields + 1)).map fun i =>
      (numFields + 2) * 16 + (fieldLengths.take i).sum

/-- `BitField.pack`s field combination loop (source lines 134-138):
`value = value | (v << shift)`, the shift advancing by each field's width. -/
def bfCombine (valueWidths : List (Nat × Nat)) (acc shift : Nat) : Nat :=
  match valueWidths with
  | [] => acc
  | p :: rest => bfCombine rest (acc ||| (p.1 <<< shift)) (shift + p.2)

/-- `Reference.pack`s null test (source line 172): `getPythonValue() == None`,
which chases reference targets (`Reference.getPythonValue` returns the
target's python value, and `Null`'s is `None`). -/
def pyIsNone : Value → Bool
  | .null => true
  | .ref _ t => pyIsNone t
  | _ => false

/-- Modelled from the spec: the `getAlignment` of the missing `types.py`
(spec section 3: each type reports "a required byte alignment"; section 4.2:
SimpleArray supports "a custom byte alignment", used for blobs, and `Struct.
finalize` uses byte alignment 4 by default).  Primitive values align to
their width, references to their pointer width, arrays to their declared
byte alignment or else their element width. -/
def getAlignment : Value → Nat
  | .null => 1
  | .prim w _ => w
  | .bitField _ bw _ _ => bw / 8
  | .ref w8 _ => w8
  | .simpleArrV _ w a _ _ => a.getD w
  | .simpleArrP _ w a _ _ => a.getD w
  | .refArr _ w8 _ _ => w8
  | .strct _ _ => 4
  | .bfArray _ _ _ => 2

mutual

/-- `Value.getImmediateDataSize` (type width; `Struct.getImmediateDataSize`
source lines 380-381, `SimpleArray.getImmediateDataSize` lines 246-248,
`ReferenceArray` lines 321-323, `BitFieldArray` lines 658-660).  The width
of the missing `types.py` types is modelled from the spec: an integer or
char is `bitWidth/8` bytes, a reference `referenceBitWidth/8`, `Null` zero. -/
def getImmediateDataSize : Value → Nat
  | .null => 0
  | .prim w _ => w
  | .bitField _ bw _ _ => bw / 8
  | .ref w8 _ => w8
  | .simpleArrV _ w _ fs es => w * (match fs with | none => es.length | some n => n)
  | .simpleArrP _ w _ fs es => w * (match fs with | none => es.length | some n => n)
  | .refArr _ w8 fs es => w8 * (match fs with | none => es.length | some n => n)
  | .strct _ ms => immediateSizeList ms
  | .bfArray _ numFields entries =>
      (numFields + 2) * 2 +
        ((getFieldLengths numFields entries).sum * entries.length + 7) / 8

/-- Sum of the members' immediate data sizes (`Struct.getImmediateDataSize`,
source lines 380-381). -/
def immediateSizeList : List Value → Nat
  | [] => 0
  | v :: vs => getImmediateDataSize v + immediateSizeList vs

end

mutual

/-- `Value.pack(dataOffset)` (source `values.py`).  Returns
`(immediateData, offsetedData)`; `none` models a raised exception.
Case by case:
* `null`: class `Null` inherits `Value.pack`, which raises (line 53-54);
* `prim`: `PrimitiveValue.pack` (lines 77-78) — the type packs the python
  value, no offseted data;
* `bitField`: `BitField.pack` (lines 133-139) — fields are OR-ed together
  LSB-first and emitted through `Int(value, True, bitWidth)`, whose
  construction checks the unsigned range (modelled from the spec's
  ValueOutOfRange error; the check itself lives in the missing `types.py`);
* `ref`: `Reference.pack` (lines 169-179) — no data offset raises; a null
  target packs to a zero pointer with no offseted data; otherwise padding
  aligns the offset to the target's alignment, the pointer is
  `dataOffset + padding`, and the offseted data is the padding zeroes
  followed by `namedstruct.pack(target)` (the target packed top-level);
* `simpleArrV`/`simpleArrP`: `SimpleArray.pack` (lines 249-258) over
  `Array.pack` (lines 201-222); value-object elements are packed with the
  data offset reduced by the immediate bytes emitted so far ("offset is
  relative to element", line 212); a fixed size array is zero-filled;
* `refArr`: `ReferenceArray.pack` (lines 325-339) over `Array.pack` with
  `elementOffsetsRelativeToElement=False`;
* `strct`: `Struct.pack` (lines 524-545) — members packed in order at the
  running offset, immediate data zero-padded to the immediate size;
* `bfArray`: `BitFieldArray.pack` (lines 661-678) — the header is
  `namedstruct.pack(SimpleArray(UINT16, headerValues))`, i.e. the header
  values as little-endian 16-bit words, the data is
  `namedstruct.pack(Blob(blob))`, i.e. the bits packed into bytes; the
  final `assert len(blob) == sum(fieldLengths)*len(entries)` is the guard. -/
def pack : Value → Option Nat → Option (List Nat × List Nat)
  | .null, _ => none
  | .prim w v, _ => some (packIntLE w v, [])
  | .bitField _ bw ws vs, _ =>
      let value := bfCombine (vs.zip ws) 0 0
      if value < 2 ^ bw then some (packIntLE (bw / 8) value, []) else none
  | .ref w8 t, dataOffset =>
      match dataOffset with
      | none => none
      | some off =>
        if pyIsNone t then some (packIntLE w8 0, [])
        else
          match pack t none with
          | none => none
          | some (a, b) =>
            let al := getAlignment t
            let padding := (al - off % al) % al
            some (packIntLE w8 (off + padding),
                  List.replicate padding 0 ++ (a ++ b))
  | .simpleArrV et w ba fs es, dataOffset =>
      let sz := getImmediateDataSize (.simpleArrV et w ba fs es)
      let d0 := match dataOffset with | none => sz | some x => x
      match packLoop es d0 0 true with
      | none => none
      | some (imm, off) =>
        let imm2 := match fs with
                    | none => imm
                    | some _ => imm ++ List.replicate (sz - imm.length) 0
        match dataOffset with
        | none => some (imm2 ++ off, [])
        | some _ => some (imm2, off)
  | .simpleArrP et w ba fs es, _ =>
      let sz := getImmediateDataSize (.simpleArrP et w ba fs es)
      let imm := es.flatMap (packIntLE w)
      let imm2 := match fs with
                  | none => imm
                  | some _ => imm ++ List.replicate (sz - imm.length) 0
      some (imm2, [])
  | .refArr et w8 fs es, dataOffset =>
      let sz := getImmediateDataSize (.refArr et w8 fs es)
      let d0 := match dataOffset with | none => sz | some x => x
      match packLoop es d0 0 false with
      | none => none
      | some (imm, off) =>
        let imm2 := match fs with
                    | none => imm
                    | some _ => imm ++ List.replicate (sz - imm.length) 0
        match dataOffset with
        | none => some (imm2 ++ off, [])
        | some _ => some (imm2, off)
  | .strct _ ms, dataOffset =>
      let sz := immediateSizeList ms
      let d0 := match dataOffset with | none => sz | some x => x
      match packLoop ms d0 0 false with
      | none => none
      | some (imm, off) =>
        let imm2 := imm ++ List.replicate (sz - imm.length) 0
        match dataOffset with
        | none => some (imm2 ++ off, [])
        | some _ => some (imm2, off)
  | .bfArray _ numFields entries, _ =>
      let fieldLengths := getFieldLengths numFields entries
      let headerValues := bfaHeaderValues numFields fieldLengths
      let header := headerValues.flatMap (packIntLE 2)
      let blob := entries.flatMap (entryBits fieldLengths)
      if blob.length = fieldLengths.sum * entries.length then
        some (header ++ packBitsToChars blob, [])
      else none

/-- The element loop of `Array.pack` (source lines 207-219) and `Struct.pack`
(lines 534-539): each value packs at the running data offset (reduced by the
immediate bytes emitted so far when offsets are relative to the element),
the offset advances by the offseted bytes produced, and both parts are
concatenated in order. -/
def packLoop : List Value → Nat → Nat → Bool → Option (List Nat × List Nat)
  | [], _, _, _ => some ([], [])
  | v :: rest, d, immLen, rel =>
      match pack v (some (d - (if rel then immLen else 0))) with
      | none => none
      | some (a, b) =>
        match packLoop rest (d + b.length) (immLen + a.length) rel with
        | none => none
        | some (as2, bs2) => some (a ++ as2, b ++ bs2)

end

/-- The type shape of a value (`Value.getType`). -/
def typeOf : Value → VType
  | .null => .nullT
  | .prim w _ => .primT w
  | .bitField name bw _ _ => .bitFieldT name bw
  | .ref _ _ => .refT
  | .simpleArrV et _ _ fs _ => .simpleArrT et fs
  | .simpleArrP et _ _ fs _ => .simpleArrT et fs
  | .refArr et w8 fs _ => .refArrT et fs (w8 * 8)
  | .strct name _ => .strctT name
  | .bfArray name _ _ => .bfArrayT name

/-- Modelled from the spec: `types.mergeTypes` (from the missing `types.py`).
Spec section 4.1: integers widen to the larger of the two widths; only
identical-name `Struct`/`BitField` types merge (to themselves) and, per
section 8, `merge(StructA, StructB)` with different names raises
TypeMismatch; any `Reference` operand fails; any other pairing merges only
when the types are identical; a `Null` operand merges to the other type
(the sources build reference arrays with null elements, e.g. the
`testStruct27`/`testStruct30`/`testStruct32` tests). -/
def mergeTypes : VType → VType → Option VType
  | .refT, _ => none
  | _, .refT => none
  | .nullT, t => some t
  | t, .nullT => some t
  | .primT w, .primT w2 => some (.primT (max w w2))
  | a, b => if a = b then some a else none


/-- Whether a value is a `Reference` (`isinstance(v, Reference)`). -/
def isReference : Value → Bool
  | .ref _ _ => true
  | _ => false

/-- `Reference.__init__` (source lines 152-161): supplying both a (non-`None`)
target value and a target type raises; a `None` target becomes `Null`; the
reference then holds the target and its pointer width
(`referenceBitWidth/8`).  `targetTypeGiven` stands for a non-`None`
`targetType` argument (the source validates it and then drops it). -/
def mkReference (targetValue : Option Value) (referenceBitWidth : Nat)
    (targetTypeGiven : Bool) : Option Value :=
  match targetValue, targetTypeGiven with
  | some _, true => none
  | some t, false => some (.ref (referenceBitWidth / 8) t)
  | none, _ => some (.ref (referenceBitWidth / 8) .null)

/-- `SimpleArray.__init__` (source lines 238-244) over plain element values:
a reference element type raises ("simple arrays cannot store references");
with a fixed size, more initial elements than the size raise. -/
def mkSimpleArray (elemType : VType) (elemWidth : Nat) (elems : List Nat)
    (fixedSize : Option Nat) (byteAlign : Option Nat) : Option Value :=
  if elemType = .refT then none
  else
    match fixedSize with
    | some n =>
        if elems.length ≤ n then
          some (.simpleArrP elemType elemWidth byteAlign fixedSize elems)
        else none
    | none => some (.simpleArrP elemType elemWidth byteAlign none elems)

/-- The element loop of `ReferenceArray.__init__` (source lines 310-317):
each element must not itself be a `Reference`, and the element types must
merge. -/
def refArrayMerge : List Value → VType → Option VType
  | [], t => some t
  | v :: rest, t =>
      if isReference v then none
      else
        match mergeTypes (typeOf v) t with
        | none => none
        | some t2 => refArrayMerge rest t2

/-- `ReferenceArray.__init__` (source lines 299-319): zero elements raise
("reference array values cannot be empty"); with a fixed size, more elements
than the size raise; elements must not be references and their types must
merge; every element is then wrapped in a `Reference` of the array's
pointer width, and the array's `ReferenceArrayType` records the merged
element type (source line 319). -/
def mkReferenceArray (values : List Value) (fixedSize : Option Nat)
    (referenceBitWidth : Nat) : Option Value :=
  match values with
  | [] => none
  | v0 :: _ =>
      if (match fixedSize with | some n => decide (values.length ≤ n) | none => true) then
        match refArrayMerge values (typeOf v0) with
        | none => none
        | some t =>
            some (.refArr t (referenceBitWidth / 8) fixedSize
                    (values.map fun v => .ref (referenceBitWidth / 8) v))
      else none

/-- An argument value handed to `BitFieldArray.add`: a `Blob`, an integer
(any python integer, so an `Int` here), or a value of some other python
type. -/
inductive AddVal where
  | blob (bits : List Nat)
  | intv (n : Int)
  | other
deriving DecidableEq, Repr

/-- One value's conversion inside `BitFieldArray.add` (source lines 592-600):
blobs are accepted; non-integers raise; integers outside `[0, 2^31)` raise. -/
def addValueEntry : AddVal → Option BFV
  | .blob bits => some (.blob bits)
  | .intv n => if 0 ≤ n ∧ n < 2 ^ 31 then some (.intv n.toNat) else none
  | .other => none

/-- The value loop of `BitFieldArray.add`: convert every supplied value,
failing if any is rejected. -/
def convertEntry : List AddVal → Option (List BFV)
  | [] => some []
  | v :: vs =>
      match addValueEntry v, convertEntry vs with
      | some b, some bs => some (b :: bs)
      | _, _ => none

/-- `BitFieldArray.add(fieldValues)` (source lines 586-602) on a sequence of
field values: first `assert(len(fields) == len(fieldValues))`, then each
value is checked and converted, and the entry is appended to the entry
list. -/
def bitFieldArrayAdd (numFields : Nat) (entries : List (List BFV))
    (fieldValues : List AddVal) : Option (List (List BFV)) :=
  if fieldValues.length = numFields then
    match convertEntry fieldValues with
    | none => none
    | some entry => some (entries ++ [entry])
  else none

/-- Modelled from the spec: `namedstruct.pack(value)` (from the missing
`namedstruct.py`), the primary interface `pack(value) → byte sequence`
(spec section 6): the value packed as the top-level call (no write cursor),
its immediate bytes followed by its offseted bytes, one contiguous buffer. -/
def packTop (v : Value) : Option (List Nat) :=
  match pack v none with
  | none => none
  | some (a, b) => some (a ++ b)

/-! ### Basic lemmas about the byte-level helpers -/

theorem packIntLE_length (w v : Nat) : (packIntLE w v).length = w := by
  simp [packIntLE]

theorem packIntLE_zero (w : Nat) : packIntLE w 0 = List.replicate w 0 := by
  simp [packIntLE, List.eq_replicate_iff]

theorem toBits_length (v n : Nat) : (toBits v n).length = n := by
  simp [toBits]

/-- Python's `(-dataOffset) % alignment` (non-negative for a positive
modulus, like Lean's `Int.emod`) agrees with the natural-number expression
used in the `pack` embedding. -/
theorem toNat_neg_emod (off al : Nat) (h : 0 < al) :
    ((-(off : Int)) % (al : Int)).toNat = (al - off % al) % al := by
  have hdmz : (al : Int) * ((off / al : Nat) : Int) + ((off % al : Nat) : Int)
      = (off : Int) := by
    exact_mod_cast Nat.div_add_mod off al
  have h1 : (-(off : Int))
      = (-((off % al : Nat) : Int)) + (al : Int) * (-((off / al : Nat) : Int)) := by
    linear_combination hdmz
  have h2 : (-(off : Int)) % (al : Int) = (-((off % al : Nat) : Int)) % (al : Int) := by
    rw [h1, Int.add_mul_emod_self_left]
  rcases Nat.eq_zero_or_pos (off % al) with hr | hr
  · simp [h2, hr, Nat.mod_self]
  · have hlt : off % al < al := Nat.mod_lt off h
    have h3 : (-((off % al : Nat) : Int)) % (al : Int) = ((al - off % al : Nat) : Int) := by
      have hshift : (-((off % al : Nat) : Int)) % (al : Int)
          = ((-((off % al : Nat) : Int)) + (al : Int) * 1) % (al : Int) :=
        (Int.add_mul_emod_self_left (-((off % al : Nat) : Int)) (al : Int) 1).symm
      have he : (-((off % al : Nat) : Int)) + (al : Int) * 1 = ((al - off % al : Nat) : Int) := by
        push_cast [Nat.cast_sub hlt.le]
        ring
      rw [hshift, he]
      apply Int.emod_eq_of_lt
      · exact Int.natCast_nonneg _
      · exact_mod_cast Nat.sub_lt h hr
    rw [h2, h3, Int.toNat_natCast, Nat.mod_eq_of_lt (Nat.sub_lt h hr)]

/-! ### The BitField combination -/

/-- The spec's description of the combined bit-field value:
`Σ fieldValue_i << cumulativeShift_i` over the fields in declaration order. -/
def bfFieldSum : List (Nat × Nat) → Nat → Nat
  | [], _ => 0
  | p :: rest, shift => p.1 * 2 ^ shift + bfFieldSum rest (shift + p.2)

theorem bfCombine_eq_sum (vws : List (Nat × Nat)) :
    ∀ acc shift, (∀ p ∈ vws, p.1 < 2 ^ p.2) → acc < 2 ^ shift →
      bfCombine vws acc shift = acc + bfFieldSum vws shift := by
  induction vws with
  | nil => intro acc shift _ _; simp [bfCombine, bfFieldSum]
  | cons p rest ih =>
      intro acc shift hbound hacc
      have hp : p.1 < 2 ^ p.2 := hbound p (List.mem_cons_self p rest)
      have hor : acc ||| (p.1 <<< shift) = acc + p.1 * 2 ^ shift := by
        rw [Nat.shiftLeft_eq, Nat.lor_comm, Nat.mul_comm]
        rw [← Nat.mul_add_lt_is_or hacc p.1]
        ring
      have hacc2 : acc + p.1 * 2 ^ shift < 2 ^ (shift + p.2) := by
        have h1 : p.1 + 1 ≤ 2 ^ p.2 := hp
        have h2 : (p.1 + 1) * 2 ^ shift ≤ 2 ^ p.2 * 2 ^ shift :=
          Nat.mul_le_mul_right _ h1
        have h3 : 2 ^ p.2 * 2 ^ shift = 2 ^ (shift + p.2) := by
          rw [← pow_add]; ring_nf
        nlinarith
      rw [bfCombine, hor, ih _ _ (fun q hq => hbound q (List.mem_cons_of_mem p hq)) hacc2,
        bfFieldSum]
      ring

/-! ### Claim C4 — BitField packing -/

/-- Claim C4, corrected.  `BitField.pack` combines the fields
least-significant-bit first in declaration order
(`value = Σ fieldValue_i << cumulativeShift_i`) and emits the combined value
as one little-endian integer of the container's bit width; but the spec's
example — an 8-bit BitField with fields `1(1b), 0(1b), 1(1b), 3(2b)` — packs
to the byte `0x1D`, not `0x17` (its own bit layout `1,0,1,1,1,0,0,0` read
LSB-first is `0x1D`). -/
theorem c4_bitField_packs_lsb_first :
    (∀ (nm : String) (bw : Nat) (ws vs : List Nat) (d : Option Nat),
      (∀ p ∈ vs.zip ws, p.1 < 2 ^ p.2) →
      bfFieldSum (vs.zip ws) 0 < 2 ^ bw →
      pack (.bitField nm bw ws vs) d
        = some (packIntLE (bw / 8) (bfFieldSum (vs.zip ws) 0), []))
  ∧ pack (.bitField "bitField1" 8 [1, 1, 1, 2] [1, 0, 1, 3]) (some 0)
      = some ([0x1D], []) := by
  constructor
  · intro nm bw ws vs d hfit hsum
    have hc : bfCombine (vs.zip ws) 0 0 = bfFieldSum (vs.zip ws) 0 := by
      simpa using bfCombine_eq_sum (vs.zip ws) 0 0 hfit (by norm_num)
    simp [pack, hc, hsum]
  · decide

/-- Witness for C4: the second test bit field of the sources
(`bitField2`, 16 bits, fields `0(1b), 127(7b), 0(3b), 7(5b)`), packed through
the general statement. -/
theorem c4_witness :
    pack (.bitField "bitField2" 16 [1, 7, 3, 5] [0, 127, 0, 7]) (some 0)
      = some (packIntLE 2 (bfFieldSum ([0, 127, 0, 7].zip [1, 7, 3, 5]) 0), []) :=
  c4_bitField_packs_lsb_first.1 "bitField2" 16 [1, 7, 3, 5] [0, 127, 0, 7] (some 0)
    (by decide) (by decide)

/-- Counterexample to C4 as stated: the spec's 8-bit example does not pack to
`0x17`; the code produces `0x1D = 29`. -/
theorem c4_counterexample :
    pack (.bitField "bitField1" 8 [1, 1, 1, 2] [1, 0, 1, 3]) (some 0)
      ≠ some ([0x17], []) := by
  decide

/-! ### Claim C2 — Reference packing -/

/-- Claim C2, confirmed.  A `Reference` packed with a defined write cursor:
a `Null` target (chased through reference targets, as
`getPythonValue() == None` does) packs to exactly `pointerWidth/8` zero
bytes with an empty indirect region, regardless of any declared target
type (the embedding stores none — the source drops the `targetType`
argument after validating it); otherwise, with
`padding = (-writeCursor) mod alignment`, the inline bytes are the integer
`writeCursor + padding` at the reference's own pointer width and the
indirect bytes are `padding` zero bytes followed by the target's fully
packed (inline ++ indirect) bytes. -/
theorem c2_reference_pack (w8 off : Nat) (t : Value) :
    (pyIsNone t = true →
      pack (.ref w8 t) (some off) = some (List.replicate w8 0, []))
  ∧ (pyIsNone t = false → 0 < getAlignment t →
      ∀ tbytes, packTop t = some tbytes →
        pack (.ref w8 t) (some off)
          = some (packIntLE w8 (off + ((-(off : Int)) % (getAlignment t : Int)).toNat),
              List.replicate ((-(off : Int)) % (getAlignment t : Int)).toNat 0 ++ tbytes)) := by
  constructor
  · intro hnull
    simp [pack, hnull, packIntLE_zero]
  · intro hnn hal tbytes htop
    rcases hpt : pack t none with _ | ⟨ta, tb⟩
    · simp [packTop, hpt] at htop
    · have hcat : ta ++ tb = tbytes := by
        simpa [packTop, hpt] using htop
      simp [pack, hnn, hpt, toNat_neg_emod off (getAlignment t) hal, hcat]

/-- Witness for C2: a reference to a 2-byte integer at write cursor 3 — one
padding byte, pointer value 4. -/
theorem c2_witness :
    pack (.ref 4 (.prim 2 7)) (some 3)
      = some (packIntLE 4 (3 + ((-(3 : Int)) % ((2 : Nat) : Int)).toNat),
          List.replicate ((-(3 : Int)) % ((2 : Nat) : Int)).toNat 0 ++ [7, 0]) := by
  have h := (c2_reference_pack 4 3 (.prim 2 7)).2 rfl (by decide) [7, 0] (by decide)
  simpa [getAlignment] using h

/-! ### Claim C8 — Reference error cases -/

/-- Claim C8, confirmed.  Packing any `Reference` without a write cursor
(`dataOffset == None`, the top-level position) raises, and constructing a
`Reference` that overrides the target type while also supplying a target
value raises; both produce no partial output (`none` carries no data). -/
theorem c8_reference_errors :
    (∀ (w8 : Nat) (t : Value), pack (.ref w8 t) none = none)
  ∧ (∀ (tv : Value) (rbw : Nat), mkReference (some tv) rbw true = none) := by
  constructor
  · intro w8 t; simp [pack]
  · intro tv rbw; rfl

/-! ### Claim C9 — ReferenceArray construction -/

theorem typeOf_refT_iff (v : Value) : typeOf v = .refT ↔ isReference v = true := by
  cases v <;> simp [typeOf, isReference]

/-- Spec section 8's merge property: `merge(StructA, StructA) == StructA`
and `merge(StructA, StructB)` with different names raises TypeMismatch. -/
theorem mergeTypes_struct_names :
    mergeTypes (.strctT "A") (.strctT "A") = some (.strctT "A")
    ∧ mergeTypes (.strctT "A") (.strctT "B") = none := by
  constructor <;> decide

theorem mergeTypes_self (t : VType) (h : t ≠ .refT) : mergeTypes t t = some t := by
  cases t <;> simp_all [mergeTypes]

theorem mergeTypes_nullT_left (t : VType) (h : t ≠ .refT) :
    mergeTypes .nullT t = some t := by
  cases t <;> simp_all [mergeTypes]

theorem mergeTypes_nullT_right (t : VType) (h : t ≠ .refT) :
    mergeTypes t .nullT = some t := by
  cases t <;> simp_all [mergeTypes]

theorem isReference_false_of_typeOf (u : Value) (t : VType) (ht : t ≠ .refT)
    (h : typeOf u = .nullT ∨ typeOf u = t) : isReference u = false := by
  cases hcase : isReference u
  · rfl
  · exfalso
    have hrt : typeOf u = .refT := (typeOf_refT_iff u).mpr hcase
    rcases h with h | h <;> rw [h] at hrt
    · exact VType.noConfusion hrt
    · exact ht hrt

/-- The element-type fold succeeds on null-mixed homogeneous lists: the
accumulator stays `Null` or the common (non-reference) type. -/
theorem refArrayMerge_null_mixed (t : VType) (ht : t ≠ .refT) :
    ∀ (us : List Value) (acc : VType), (acc = .nullT ∨ acc = t) →
      (∀ u ∈ us, typeOf u = .nullT ∨ typeOf u = t) →
      ∃ t2, refArrayMerge us acc = some t2 ∧ (t2 = .nullT ∨ t2 = t) := by
  intro us
  induction us with
  | nil => intro acc hacc _; exact ⟨acc, rfl, hacc⟩
  | cons u rest ih =>
      intro acc hacc hall
      have hu := hall u (List.mem_cons_self u rest)
      have hnr : isReference u = false := isReference_false_of_typeOf u t ht hu
      have hstep : ∃ acc2, mergeTypes (typeOf u) acc = some acc2
          ∧ (acc2 = .nullT ∨ acc2 = t) := by
        rcases hu with h | h <;> rcases hacc with h2 | h2 <;> rw [h, h2]
        · exact ⟨.nullT, rfl, Or.inl rfl⟩
        · exact ⟨t, mergeTypes_nullT_left t ht, Or.inr rfl⟩
        · exact ⟨t, mergeTypes_nullT_right t ht, Or.inr rfl⟩
        · exact ⟨t, mergeTypes_self t ht, Or.inr rfl⟩
      obtain ⟨acc2, hmt, hacc2⟩ := hstep
      obtain ⟨t2, hres, ht2⟩ :=
        ih acc2 hacc2 (fun x hx => hall x (List.mem_cons_of_mem u hx))
      refine ⟨t2, ?_, ht2⟩
      rw [refArrayMerge, if_neg (by simp [hnr]), hmt]
      exact hres

/-- The element-type fold succeeds on integer lists of arbitrary widths
(integer widening), nulls included. -/
theorem refArrayMerge_prims :
    ∀ (us : List Value) (acc : VType),
      (acc = .nullT ∨ ∃ w, acc = .primT w) →
      (∀ u ∈ us, typeOf u = .nullT ∨ ∃ wu, typeOf u = .primT wu) →
      ∃ t2, refArrayMerge us acc = some t2 := by
  intro us
  induction us with
  | nil => intro acc _ _; exact ⟨acc, rfl⟩
  | cons u rest ih =>
      intro acc hacc hall
      have hu := hall u (List.mem_cons_self u rest)
      have hnr : isReference u = false := by
        cases hcase : isReference u
        · rfl
        · exfalso
          have hrt : typeOf u = .refT := (typeOf_refT_iff u).mpr hcase
          rcases hu with h | ⟨wu, h⟩ <;> rw [h] at hrt <;> exact VType.noConfusion hrt
      have hstep : ∃ acc2, mergeTypes (typeOf u) acc = some acc2
          ∧ (acc2 = .nullT ∨ ∃ w, acc2 = .primT w) := by
        rcases hu with h | ⟨wu, h⟩ <;> rcases hacc with h2 | ⟨wa, h2⟩ <;> rw [h, h2]
        · exact ⟨.nullT, rfl, Or.inl rfl⟩
        · exact ⟨.primT wa, rfl, Or.inr ⟨wa, rfl⟩⟩
        · exact ⟨.primT wu, rfl, Or.inr ⟨wu, rfl⟩⟩
        · exact ⟨.primT (max wu wa), rfl, Or.inr ⟨max wu wa, rfl⟩⟩
      obtain ⟨acc2, hmt, hacc2⟩ := hstep
      obtain ⟨t2, hres⟩ :=
        ih acc2 hacc2 (fun x hx => hall x (List.mem_cons_of_mem u hx))
      refine ⟨t2, ?_⟩
      rw [refArrayMerge, if_neg (by simp [hnr]), hmt]
      exact hres

/-- Claim C9, corrected.  Constructing a `ReferenceArray` from an empty
sequence always raises (EmptyCollection); with at least one element the
emptiness check passes, and construction succeeds whenever no element is
itself a `Reference`, the element types merge (conjunct 2: merge success is
exactly the source's fold over `mergeTypes`, and the merged element type is
recorded in the array's type), and a declared fixed size is not exceeded.
The merge condition holds for the collections the repository actually
builds: null-mixed lists of one non-reference type (conjunct 3, e.g. the
`testStruct27`/`testStruct30`/`testStruct32` string arrays with `None`
entries) and integer lists of arbitrary widths, which widen (conjunct 4);
different-named structs, by contrast, fail to merge
(`mergeTypes_struct_names`). -/
theorem c9_referenceArray_construction :
    (∀ (fs : Option Nat) (w : Nat), mkReferenceArray [] fs w = none)
  ∧ (∀ (v : Value) (vs : List Value) (fs : Option Nat) (w : Nat) (t : VType),
      refArrayMerge (v :: vs) (typeOf v) = some t →
      (∀ n, fs = some n → (v :: vs).length ≤ n) →
      mkReferenceArray (v :: vs) fs w
        = some (.refArr t (w / 8) fs ((v :: vs).map fun u => .ref (w / 8) u)))
  ∧ (∀ (v : Value) (vs : List Value) (t : VType), t ≠ .refT →
      (∀ u ∈ v :: vs, typeOf u = .nullT ∨ typeOf u = t) →
      ∃ t2, refArrayMerge (v :: vs) (typeOf v) = some t2
        ∧ (t2 = .nullT ∨ t2 = t))
  ∧ (∀ (v : Value) (vs : List Value),
      (∀ u ∈ v :: vs, typeOf u = .nullT ∨ ∃ wu, typeOf u = .primT wu) →
      ∃ t2, refArrayMerge (v :: vs) (typeOf v) = some t2) := by
  refine ⟨?_, ?_, ?_, ?_⟩
  · intro fs w
    rfl
  · intro v vs fs w t hmerge hfs
    rcases fs with _ | n
    · simp [mkReferenceArray, hmerge]
    · have hlen : vs.length + 1 ≤ n := by simpa using hfs n rfl
      simp [mkReferenceArray, hmerge, hlen]
  · intro v vs t ht hall
    exact refArrayMerge_null_mixed t ht (v :: vs) (typeOf v)
      (hall v (List.mem_cons_self v vs)) hall
  · intro v vs hall
    exact refArrayMerge_prims (v :: vs) (typeOf v)
      (hall v (List.mem_cons_self v vs)) hall

/-- Witness for C9: a null-mixed two-element list (the sources' pattern of
reference arrays with `None` entries) — the merge succeeds, widening the
element type from `Null` to the int type, and both elements are wrapped in
references. -/
theorem c9_witness :
    mkReferenceArray [.null, .prim 1 102] (some 4) 32
      = some (.refArr (.primT 1) 4 (some 4) [.ref 4 .null, .ref 4 (.prim 1 102)]) := by
  have h := c9_referenceArray_construction.2.1 .null [.prim 1 102] (some 4) 32
    (.primT 1) (by decide) (by intro n hn; cases hn; decide)
  simpa using h

/-- Counterexample to C9 as stated: a `ReferenceArray` built from one element
that is itself a `Reference` does not construct successfully. -/
theorem c9_counterexample :
    (mkReferenceArray [.ref 4 .null] none 32).isSome = false := by
  decide

/-! ### Claim C10 — BitFieldArray.add -/

/-- The success condition C10 states for one supplied value: a `Blob`, or an
integer in `[0, 2^31)`. -/
def addValOK (v : AddVal) : Prop :=
  (∃ bits, v = .blob bits) ∨ (∃ n, v = .intv n ∧ 0 ≤ n ∧ n < 2 ^ 31)

theorem addValueEntry_isSome_iff (v : AddVal) :
    (addValueEntry v).isSome = true ↔ addValOK v := by
  cases v with
  | blob bits => simp [addValueEntry, addValOK]
  | intv n =>
      by_cases h : 0 ≤ n ∧ n < 2 ^ 31 <;> simp [addValueEntry, addValOK, h]
  | other => simp [addValueEntry, addValOK]

theorem convertEntry_none_of_bad (v : AddVal) (hbad : addValueEntry v = none) :
    ∀ vals : List AddVal, v ∈ vals → convertEntry vals = none := by
  intro vals
  induction vals with
  | nil => intro hv; cases hv
  | cons u rest ih =>
      intro hv
      rw [convertEntry]
      rcases List.mem_cons.mp hv with rfl | hv2
      · rw [hbad]
      · rw [ih hv2]
        cases addValueEntry u <;> rfl

theorem convertEntry_some_of_ok (vals : List AddVal)
    (hok : ∀ v ∈ vals, (addValueEntry v).isSome = true) :
    ∃ entry, convertEntry vals = some entry := by
  induction vals with
  | nil => exact ⟨[], rfl⟩
  | cons u rest ih =>
      rcases ih (fun x hx => hok x (List.mem_cons_of_mem u hx)) with ⟨e, he⟩
      rcases Option.isSome_iff_exists.mp (hok u (List.mem_cons_self u rest)) with ⟨b, hb⟩
      exact ⟨b :: e, by rw [convertEntry, hb, he]⟩

/-- Claim C10, corrected.  `BitFieldArray.add` raises whenever any supplied
non-blob field value is not an integer, is negative, or is at least `2^31`
(an upper bound the spec never states); when every field value is a `Blob`
or an integer in `[0, 2^31)` **and** exactly as many values as declared
fields are supplied (the source first asserts
`len(fields) == len(fieldValues)`), the converted entry is appended. -/
theorem c10_bitFieldArray_add :
    (∀ (numFields : Nat) (entries : List (List BFV)) (vals : List AddVal),
      (∃ v ∈ vals, ¬ addValOK v) → bitFieldArrayAdd numFields entries vals = none)
  ∧ (∀ (numFields : Nat) (entries : List (List BFV)) (vals : List AddVal),
      vals.length = numFields → (∀ v ∈ vals, addValOK v) →
      ∃ entry, convertEntry vals = some entry ∧
        bitFieldArrayAdd numFields entries vals = some (entries ++ [entry])) := by
  constructor
  · intro numFields entries vals hex
    obtain ⟨v, hv, hbad⟩ := hex
    rw [bitFieldArrayAdd]
    by_cases hlen : vals.length = numFields
    · have hnone : addValueEntry v = none := by
        rcases h : addValueEntry v with _ | b
        · rfl
        · exact absurd ((addValueEntry_isSome_iff v).mp (by simp [h])) hbad
      simp [hlen, convertEntry_none_of_bad v hnone vals hv]
    · simp [hlen]
  · intro numFields entries vals hlen hok
    rcases convertEntry_some_of_ok vals
        (fun v hv => (addValueEntry_isSome_iff v).mpr (hok v hv)) with ⟨e, he⟩
    exact ⟨e, he, by rw [bitFieldArrayAdd, if_pos hlen, he]⟩

/-- Witness for C10: adding the entry `[blob 001001, blob 0…0, 0]` of the
sources' `ABFooBitArray` test. -/
theorem c10_witness :
    ∃ entry, convertEntry [.blob [0, 0, 1, 0, 0, 1], .blob (List.replicate 50 0), .intv 0]
        = some entry ∧
      bitFieldArrayAdd 3 [] [.blob [0, 0, 1, 0, 0, 1], .blob (List.replicate 50 0), .intv 0]
        = some ([] ++ [entry]) := by
  apply c10_bitFieldArray_add.2 3 [] _ (by decide)
  intro v hv
  simp only [List.mem_cons, List.not_mem_nil, or_false] at hv
  rcases hv with rfl | rfl | rfl
  · exact Or.inl ⟨_, rfl⟩
  · exact Or.inl ⟨_, rfl⟩
  · exact Or.inr ⟨0, rfl, by decide, by decide⟩

/-- Counterexample to C10 as stated: one in-range integer value supplied to a
two-field `BitFieldArray` — every supplied value is fine, yet `add` raises
(the arity assertion fails) instead of appending the entry. -/
theorem c10_counterexample :
    bitFieldArrayAdd 2 [] [.intv 5] = none ∧ (0 : Int) ≤ 5 ∧ (5 : Int) < 2 ^ 31 := by
  decide

/-! ### Claims C6 and C5 — Struct packing -/

/-- The spec's description of container packing, written independently of the
source loop: member N packs at the write cursor advanced by the indirect
lengths of the members before it, and the per-member results are kept
separate. -/
def threadPack : List Value → Nat → Option (List (List Nat × List Nat))
  | [], _ => some []
  | v :: rest, d =>
      match pack v (some d) with
      | none => none
      | some ab =>
          match threadPack rest (d + ab.2.length) with
          | none => none
          | some rs => some (ab :: rs)

/-- The source's fold over members (`packLoop` with absolute offsets, as
`Struct.pack` and `ReferenceArray.pack` use it) produces exactly the
concatenation, in member order, of the per-member results packed at the
threaded cursor. -/
theorem packLoop_eq_threadPack (es : List Value) :
    ∀ d i, packLoop es d i false
      = match threadPack es d with
        | none => none
        | some rs => some ((rs.map Prod.fst).flatten, (rs.map Prod.snd).flatten) := by
  induction es with
  | nil => intro d i; rfl
  | cons v rest ih =>
      intro d i
      rw [packLoop, threadPack, show (if false then i else 0) = 0 from rfl, Nat.sub_zero]
      cases hp : pack v (some d) with
      | none => rfl
      | some ab =>
          rcases ab with ⟨a, b⟩
          dsimp only
          rw [ih (d + b.length) (i + a.length)]
          cases ht : threadPack rest (d + b.length) with
          | none => rfl
          | some rs => simp

/-- Claim C6, confirmed.  `Struct.pack` with a write cursor returns inline
bytes equal to the concatenation of all member inline bytes zero-padded up
to the struct's total immediate size, and indirect bytes equal to the
concatenation in member order of each member's own indirect bytes, each
member packed at the cursor advanced by the indirect lengths of the members
before it (which is what `threadPack` computes), so member N's reference
targets land after all indirect data of earlier members. -/
theorem c6_struct_pack (nm : String) (ms : List Value) (d0 : Nat) :
    pack (.strct nm ms) (some d0)
      = match threadPack ms d0 with
        | none => none
        | some rs =>
            some ((rs.map Prod.fst).flatten
                    ++ List.replicate
                        (immediateSizeList ms - ((rs.map Prod.fst).flatten).length) 0,
                  (rs.map Prod.snd).flatten) := by
  rw [pack, packLoop_eq_threadPack]
  cases ht : threadPack ms d0 with
  | none => rfl
  | some rs => simp

/-! #### Well-formed values and the inline-length invariant -/

mutual

/-- Well-formedness, the invariants the source constructors establish:
array elements have the element type's width as immediate size (the merged
element type the constructors check against), and fixed-size arrays hold at
most their declared element count (asserted at construction). -/
def wfV : Value → Bool
  | .null => true
  | .prim _ _ => true
  | .bitField _ _ _ _ => true
  | .ref _ _ => true
  | .simpleArrV _ w _ fs es =>
      wfVList es && es.all (fun e => getImmediateDataSize e == w) &&
        (match fs with | none => true | some n => es.length ≤ n)
  | .simpleArrP _ _ _ fs es =>
      (match fs with | none => true | some n => es.length ≤ n)
  | .refArr _ w8 fs es =>
      wfVList es && es.all (fun e => getImmediateDataSize e == w8) &&
        (match fs with | none => true | some n => es.length ≤ n)
  | .strct _ ms => wfVList ms
  | .bfArray _ _ _ => true

def wfVList : List Value → Bool
  | [] => true
  | v :: vs => wfV v && wfVList vs

end

theorem length_flatMap_const {α : Type} (l : List α) (f : α → List Nat) (k : Nat)
    (h : ∀ x ∈ l, (f x).length = k) : (l.flatMap f).length = k * l.length := by
  induction l with
  | nil => simp
  | cons x rest ih =>
      rw [List.flatMap_cons, List.length_append, h x (List.mem_cons_self x rest),
        ih (fun y hy => h y (List.mem_cons_of_mem x hy)), List.length_cons]
      ring

theorem immediateSizeList_const (es : List Value) (w : Nat)
    (h : ∀ e ∈ es, getImmediateDataSize e = w) : immediateSizeList es = w * es.length := by
  induction es with
  | nil => rfl
  | cons e rest ih =>
      rw [immediateSizeList, h e (List.mem_cons_self e rest),
        ih (fun x hx => h x (List.mem_cons_of_mem e hx)), List.length_cons]
      ring

theorem packBitsToChars_length (bits : List Nat) :
    (packBitsToChars bits).length = (bits.length + 7) / 8 := by
  simp [packBitsToChars]

/-- Joint induction for the inline-length invariant: a well-formed value's
packed immediate data is exactly its immediate data size long, and the
member loop's immediate data is the summed member size. -/
theorem pack_inline_length_aux :
    ∀ N : Nat,
      (∀ v : Value, sizeOf v ≤ N → wfV v = true →
        ∀ d a b, pack v (some d) = some (a, b) → a.length = getImmediateDataSize v)
      ∧ (∀ es : List Value, sizeOf es ≤ N → wfVList es = true →
        ∀ d i rel imm off, packLoop es d i rel = some (imm, off) →
          imm.length = immediateSizeList es) := by
  intro N
  induction N using Nat.strong_induction_on with
  | _ N ih =>
    constructor
    · intro v hsz hwf d a b hp
      cases v with
      | null => simp [pack] at hp
      | prim w value =>
          simp only [pack, Option.some.injEq, Prod.mk.injEq] at hp
          rw [← hp.1, packIntLE_length]
          rfl
      | bitField nm bw ws vs =>
          simp only [pack] at hp
          split at hp
          · simp only [Option.some.injEq, Prod.mk.injEq] at hp
            rw [← hp.1, packIntLE_length]
            rfl
          · exact Option.noConfusion hp
      | ref w8 t =>
          simp only [pack] at hp
          split at hp
          · simp only [Option.some.injEq, Prod.mk.injEq] at hp
            rw [← hp.1, packIntLE_length]
            rfl
          · cases hq : pack t none with
            | none => rw [hq] at hp; exact Option.noConfusion hp
            | some ab =>
                rcases ab with ⟨ta, tb⟩
                rw [hq] at hp
                simp only [Option.some.injEq, Prod.mk.injEq] at hp
                rw [← hp.1, packIntLE_length]
                rfl
      | simpleArrV et w ba fs es =>
          have hlt : sizeOf es < N := by
            simp only [Value.simpleArrV.sizeOf_spec] at hsz
            omega
          simp only [wfV, Bool.and_eq_true] at hwf
          obtain ⟨⟨hwfl, hall⟩, hfs⟩ := hwf
          have hconst : ∀ e ∈ es, getImmediateDataSize e = w := by
            intro e he
            simpa using List.all_eq_true.mp hall e he
          simp only [pack] at hp
          cases hl : packLoop es d 0 true with
          | none => rw [hl] at hp; exact Option.noConfusion hp
          | some io =>
              rcases io with ⟨imm, off⟩
              rw [hl] at hp
              have himm : imm.length = w * es.length := by
                rw [(ih (sizeOf es) hlt).2 es le_rfl hwfl d 0 true imm off hl,
                  immediateSizeList_const es w hconst]
              rcases fs with _ | n
              · simp only [Option.some.injEq, Prod.mk.injEq] at hp
                rw [← hp.1, himm]
                simp [getImmediateDataSize]
              · simp only [Option.some.injEq, Prod.mk.injEq] at hp
                have hle : es.length ≤ n := by simpa using hfs
                have hmul : w * es.length ≤ w * n := Nat.mul_le_mul_left w hle
                rw [← hp.1]
                simp only [List.length_append, List.length_replicate, himm,
                  getImmediateDataSize]
                omega
      | simpleArrP et w ba fs es =>
          simp only [pack, Option.some.injEq, Prod.mk.injEq] at hp
          have himm : (es.flatMap (packIntLE w)).length = w * es.length :=
            length_flatMap_const es (packIntLE w) w (fun x _ => packIntLE_length w x)
          rcases fs with _ | n
          · rw [← hp.1, himm]
            simp [getImmediateDataSize]
          · have hle : es.length ≤ n := by simpa [wfV] using hwf
            have hmul : w * es.length ≤ w * n := Nat.mul_le_mul_left w hle
            rw [← hp.1]
            simp only [List.length_append, List.length_replicate, himm,
              getImmediateDataSize]
            omega
      | refArr et w8 fs es =>
          have hlt : sizeOf es < N := by
            simp only [Value.refArr.sizeOf_spec] at hsz
            omega
          simp only [wfV, Bool.and_eq_true] at hwf
          obtain ⟨⟨hwfl, hall⟩, hfs⟩ := hwf
          have hconst : ∀ e ∈ es, getImmediateDataSize e = w8 := by
            intro e he
            simpa using List.all_eq_true.mp hall e he
          simp only [pack] at hp
          cases hl : packLoop es d 0 false with
          | none => rw [hl] at hp; exact Option.noConfusion hp
          | some io =>
              rcases io with ⟨imm, off⟩
              rw [hl] at hp
              have himm : imm.length = w8 * es.length := by
                rw [(ih (sizeOf es) hlt).2 es le_rfl hwfl d 0 false imm off hl,
                  immediateSizeList_const es w8 hconst]
              rcases fs with _ | n
              · simp only [Option.some.injEq, Prod.mk.injEq] at hp
                rw [← hp.1, himm]
                simp [getImmediateDataSize]
              · simp only [Option.some.injEq, Prod.mk.injEq] at hp
                have hle : es.length ≤ n := by simpa using hfs
                have hmul : w8 * es.length ≤ w8 * n := Nat.mul_le_mul_left w8 hle
                rw [← hp.1]
                simp only [List.length_append, List.length_replicate, himm,
                  getImmediateDataSize]
                omega
      | strct nm ms =>
          have hlt : sizeOf ms < N := by
            simp only [Value.strct.sizeOf_spec] at hsz
            omega
          have hwfl : wfVList ms = true := by simpa [wfV] using hwf
          simp only [pack] at hp
          cases hl : packLoop ms d 0 false with
          | none => rw [hl] at hp; exact Option.noConfusion hp
          | some io =>
              rcases io with ⟨imm, off⟩
              rw [hl] at hp
              have himm : imm.length = immediateSizeList ms :=
                (ih (sizeOf ms) hlt).2 ms le_rfl hwfl d 0 false imm off hl
              simp only [Option.some.injEq, Prod.mk.injEq] at hp
              rw [← hp.1]
              simp only [List.length_append, List.length_replicate, himm,
                getImmediateDataSize]
              omega
      | bfArray nm numFields entries =>
          simp only [pack] at hp
          split at hp
          · rename_i hguard
            simp only [Option.some.injEq, Prod.mk.injEq] at hp
            rw [← hp.1]
            have hhdr : (((bfaHeaderValues numFields
                    (getFieldLengths numFields entries)).flatMap
                    (packIntLE 2)).length : Nat) = 2 * (numFields + 2) := by
              rw [length_flatMap_const _ (packIntLE 2) 2 (fun x _ => packIntLE_length 2 x)]
              simp [bfaHeaderValues]
            rw [List.length_append, hhdr, packBitsToChars_length, hguard,
              getImmediateDataSize]
            ring_nf
          · exact Option.noConfusion hp
    · intro es hsz hwfl d i rel imm off hl
      cases es with
      | nil =>
          simp only [packLoop, Option.some.injEq, Prod.mk.injEq] at hl
          rw [← hl.1]
          rfl
      | cons v rest =>
          have hltv : sizeOf v < N := by
            simp only [List.cons.sizeOf_spec] at hsz
            omega
          have hltr : sizeOf rest < N := by
            simp only [List.cons.sizeOf_spec] at hsz
            omega
          simp only [wfVList, Bool.and_eq_true] at hwfl
          obtain ⟨hwv, hwrest⟩ := hwfl
          simp only [packLoop] at hl
          cases hp : pack v (some (d - if rel then i else 0)) with
          | none => rw [hp] at hl; exact Option.noConfusion hl
          | some ab =>
              rcases ab with ⟨a, b⟩
              rw [hp] at hl
              dsimp only at hl
              cases hrec : packLoop rest (d + b.length) (i + a.length) rel with
              | none => rw [hrec] at hl; exact Option.noConfusion hl
              | some io =>
                  rcases io with ⟨as2, bs2⟩
                  rw [hrec] at hl
                  simp only [Option.some.injEq, Prod.mk.injEq] at hl
                  rw [← hl.1, List.length_append,
                    (ih (sizeOf v) hltv).1 v le_rfl hwv _ a b hp,
                    (ih (sizeOf rest) hltr).2 rest le_rfl hwrest _ _ rel as2 bs2 hrec]
                  rfl

/-- A well-formed value's packed immediate data has exactly its immediate
data size (`getImmediateDataSize`, the type width). -/
theorem pack_inline_length (v : Value) (hwf : wfV v = true) (d : Nat) (a b : List Nat)
    (hp : pack v (some d) = some (a, b)) : a.length = getImmediateDataSize v :=
  (pack_inline_length_aux (sizeOf v)).1 v le_rfl hwf d a b hp

theorem packLoop_inline_length (es : List Value) (hwf : wfVList es = true)
    (d i : Nat) (rel : Bool) (imm off : List Nat)
    (hl : packLoop es d i rel = some (imm, off)) : imm.length = immediateSizeList es :=
  (pack_inline_length_aux (sizeOf es)).2 es le_rfl hwf d i rel imm off hl

/-- Claim C5, corrected.  For a well-formed `Struct` packed top-level the
total output length is its immediate size plus the length of the whole
indirect region (the concatenation of the indirect bytes contributed by
**all** members — not only members that are themselves references: an
immediate member, e.g. a nested struct holding a reference, contributes
too); when no member contributes indirect bytes, the length is exactly the
immediate size; a struct with no members packs to the empty byte
sequence. -/
theorem c5_struct_total_length :
    (∀ (nm : String) (ms : List Value), wfVList ms = true →
      ∀ imm off, packLoop ms (immediateSizeList ms) 0 false = some (imm, off) →
        ∃ buf, packTop (.strct nm ms) = some buf ∧
          buf.length = immediateSizeList ms + off.length ∧
          (off = [] → buf.length = immediateSizeList ms))
  ∧ (∀ nm : String, packTop (.strct nm []) = some []) := by
  constructor
  · intro nm ms hwf imm off hl
    have himm : imm.length = immediateSizeList ms :=
      packLoop_inline_length ms hwf _ 0 false imm off hl
    refine ⟨imm ++ List.replicate (immediateSizeList ms - imm.length) 0 ++ off, ?_, ?_, ?_⟩
    · simp only [packTop, pack, hl]
      simp [List.append_assoc]
    · simp only [List.length_append, List.length_replicate, himm]
      omega
    · intro h0
      subst h0
      simp only [List.length_append, List.length_replicate, List.length_nil, himm]
      omega
  · intro nm
    rfl

/-- Witness for C5: a struct of an int8 and a reference to an int8 — five
immediate bytes plus one indirect byte. -/
theorem c5_witness :
    ∃ buf, packTop (.strct "testStruct" [.prim 1 5, .ref 4 (.prim 1 7)]) = some buf ∧
      buf.length = immediateSizeList [.prim 1 5, .ref 4 (.prim 1 7)] + [7].length ∧
      ([7] = ([] : List Nat) →
        buf.length = immediateSizeList [.prim 1 5, .ref 4 (.prim 1 7)]) :=
  c5_struct_total_length.1 "testStruct" [.prim 1 5, .ref 4 (.prim 1 7)] (by decide)
    [5, 5, 0, 0, 0] [7] (by decide)

/-- Counterexample to C5 as stated: a struct whose single member is an
*immediate* nested struct (not a Reference member) that itself holds a
reference.  Every member is immediate and no member is referenced, yet the
packed length is 5, not the immediate size 4. -/
theorem c5_counterexample :
    packTop (.strct "outer" [.strct "inner" [.ref 4 (.prim 1 5)]])
        = some [4, 0, 0, 0, 5] ∧
    immediateSizeList [.strct "inner" [.ref 4 (.prim 1 5)]] = 4 ∧
    isReference (.strct "inner" [.ref 4 (.prim 1 5)]) = false ∧
    (5 : Nat) ≠ 4 := by
  decide

/-! ### Claim C7 — fixed-size arrays -/

theorem flatten_replicate_replicate (k w : Nat) :
    (List.replicate k (List.replicate w (0 : Nat))).flatten = List.replicate (k * w) 0 := by
  induction k with
  | zero => simp
  | succ m ih =>
      rw [List.replicate_succ, List.flatten_cons, ih, Nat.succ_mul, Nat.add_comm,
        ← List.replicate_add]

/-- Claim C7, confirmed.  An array with a declared fixed length rejects more
initial elements than that length at construction (both kinds); on packing,
a plain `SimpleArray` zero-fills the unused trailing slots and a
`ReferenceArray` fills them with null pointers (`pointerWidth/8` zero bytes
per slot, `packIntLE w8 0`), so the inline size equals the fixed length
times the element width. -/
theorem c7_fixed_size_arrays :
    (∀ (et : VType) (w : Nat) (es : List Nat) (n : Nat) (ba : Option Nat),
      n < es.length → mkSimpleArray et w es (some n) ba = none)
  ∧ (∀ (vs : List Value) (n w : Nat),
      n < vs.length → (mkReferenceArray vs (some n) w).isSome = false)
  ∧ (∀ (et : VType) (w : Nat) (ba : Option Nat) (n : Nat) (es : List Nat)
        (d : Option Nat),
      es.length ≤ n →
      pack (.simpleArrP et w ba (some n) es) d
          = some (es.flatMap (packIntLE w) ++ List.replicate ((n - es.length) * w) 0, [])
        ∧ (es.flatMap (packIntLE w) ++ List.replicate ((n - es.length) * w) 0).length
            = n * w)
  ∧ (∀ (et : VType) (w8 n : Nat) (es : List Value) (d : Nat) (imm off : List Nat),
      wfVList es = true → (∀ e ∈ es, getImmediateDataSize e = w8) → es.length ≤ n →
      packLoop es d 0 false = some (imm, off) →
      pack (.refArr et w8 (some n) es) (some d)
          = some (imm ++ (List.replicate (n - es.length) (packIntLE w8 0)).flatten, off)) := by
  refine ⟨?_, ?_, ?_, ?_⟩
  · intro et w es n ba h
    by_cases hrt : et = .refT
    · simp [mkSimpleArray, hrt]
    · simp [mkSimpleArray, hrt, Nat.not_le.mpr h]
  · intro vs n w h
    cases vs with
    | nil => rfl
    | cons v rest =>
        have h2 : ¬ (rest.length + 1 ≤ n) := by
          simp only [List.length_cons] at h
          omega
        simp [mkReferenceArray, h2]
  · intro et w ba n es d hle
    have hflat : (es.flatMap (packIntLE w)).length = w * es.length :=
      length_flatMap_const es (packIntLE w) w (fun x _ => packIntLE_length w x)
    have hcnt : w * n - (es.flatMap (packIntLE w)).length = (n - es.length) * w := by
      rw [hflat, Nat.sub_mul, Nat.mul_comm n w, Nat.mul_comm es.length w]
    have hcnt2 : w * n - (List.map (List.length ∘ packIntLE w) es).sum
        = (n - es.length) * w := by
      rw [← List.length_flatMap]
      exact hcnt
    constructor
    · cases d <;> simp [pack, getImmediateDataSize, hcnt, hcnt2]
    · have hmul : w * es.length ≤ w * n := Nat.mul_le_mul_left w hle
      rw [List.length_append, List.length_replicate, hflat, Nat.sub_mul,
        Nat.mul_comm n w, Nat.mul_comm es.length w, Nat.add_sub_cancel' hmul,
        Nat.mul_comm w n]
  · intro et w8 n es d imm off hwf hconst hle hl
    have himm : imm.length = w8 * es.length := by
      rw [packLoop_inline_length es hwf d 0 false imm off hl,
        immediateSizeList_const es w8 hconst]
    have hcnt : w8 * n - imm.length = (n - es.length) * w8 := by
      rw [himm, Nat.sub_mul, Nat.mul_comm n w8, Nat.mul_comm es.length w8]
    simp [pack, hl, getImmediateDataSize, hcnt, packIntLE_zero,
      flatten_replicate_replicate]

/-- Witness for C7: a 3-slot fixed reference array holding one reference to
an int8, packed at write cursor 12 — two trailing null-pointer slots. -/
theorem c7_witness :
    pack (.refArr (.primT 1) 4 (some 3) [.ref 4 (.prim 1 9)]) (some 12)
      = some ([12, 0, 0, 0]
                ++ (List.replicate (3 - [Value.ref 4 (.prim 1 9)].length)
                      (packIntLE 4 0)).flatten,
              [9]) := by
  apply c7_fixed_size_arrays.2.2.2 (.primT 1) 4 3 [.ref 4 (.prim 1 9)] 12
    [12, 0, 0, 0] [9] (by decide) _ (by decide) (by decide)
  intro e he
  simp only [List.mem_cons, List.not_mem_nil, or_false] at he
  subst he
  rfl

/-! ### Claim C3 — array packing and pointer bases -/

/-- The spec-side description of `SimpleArray` element packing with
value-object elements: like `threadPack`, but each element receives the
cursor *reduced by the inline bytes emitted so far* (the source's
`elementOffsetsRelativeToElement=True`, "offset is relative to element"). -/
def threadPackRel : List Value → Nat → Nat → Option (List (List Nat × List Nat))
  | [], _, _ => some []
  | v :: rest, d, i =>
      match pack v (some (d - i)) with
      | none => none
      | some ab =>
          match threadPackRel rest (d + ab.2.length) (i + ab.1.length) with
          | none => none
          | some rs => some (ab :: rs)

theorem packLoop_eq_threadPackRel (es : List Value) :
    ∀ d i, packLoop es d i true
      = match threadPackRel es d i with
        | none => none
        | some rs => some ((rs.map Prod.fst).flatten, (rs.map Prod.snd).flatten) := by
  induction es with
  | nil => intro d i; rfl
  | cons v rest ih =>
      intro d i
      rw [packLoop, threadPackRel, show (if true then i else 0) = i from rfl]
      cases hp : pack v (some (d - i)) with
      | none => rfl
      | some ab =>
          rcases ab with ⟨a, b⟩
          dsimp only
          rw [ih (d + b.length) (i + a.length)]
          cases ht : threadPackRel rest (d + b.length) (i + a.length) with
          | none => rfl
          | some rs => simp

/-- Each element recorded by `threadPack` was packed at the cursor advanced
by exactly the indirect lengths of the elements before it. -/
theorem threadPack_cursor :
    ∀ (es : List Value) (d : Nat) (rs : List (List Nat × List Nat)),
      threadPack es d = some rs →
      rs.length = es.length ∧
      ∀ k (hk : k < es.length) (hk2 : k < rs.length),
        pack (es.get ⟨k, hk⟩)
            (some (d + (((rs.take k).map fun p => p.2.length).sum)))
          = some (rs.get ⟨k, hk2⟩) := by
  intro es
  induction es with
  | nil =>
      intro d rs h
      simp only [threadPack, Option.some.injEq] at h
      subst h
      exact ⟨rfl, fun k hk _ => absurd hk (Nat.not_lt_zero k)⟩
  | cons v rest ih =>
      intro d rs h
      rw [threadPack] at h
      cases hp : pack v (some d) with
      | none => rw [hp] at h; exact Option.noConfusion h
      | some ab =>
          rw [hp] at h
          dsimp only at h
          cases ht : threadPack rest (d + ab.2.length) with
          | none => rw [ht] at h; exact Option.noConfusion h
          | some rs2 =>
              rw [ht] at h
              dsimp only at h
              have hrs : ab :: rs2 = rs := Option.some.inj h
              subst hrs
              obtain ⟨hlen, hrec⟩ := ih (d + ab.2.length) rs2 ht
              refine ⟨by simp [hlen], ?_⟩
              intro k hk hk2
              cases k with
              | zero => simpa using hp
              | succ m =>
                  have hm : m < rest.length := by simpa using hk
                  have hm2 : m < rs2.length := by simpa using hk2
                  have hstep := hrec m hm hm2
                  simpa [List.take_succ_cons, Nat.add_assoc] using hstep

/-- Dropping the summed lengths of the first `k` chunks of a flattened list
lands at the flattening of the remaining chunks. -/
theorem flatten_drop :
    ∀ (k : Nat) (rs : List (List Nat)),
      rs.flatten.drop ((rs.take k).map List.length).sum = (rs.drop k).flatten := by
  intro k
  induction k with
  | zero => intro rs; simp
  | succ m ih =>
      intro rs
      cases rs with
      | nil => simp
      | cons l rest =>
          rw [List.take_succ_cons, List.map_cons, List.sum_cons, List.flatten_cons,
            List.drop_append, ih rest, List.drop_succ_cons]

theorem drop_replicate_append (n x : Nat) (X : List Nat) :
    (List.replicate n x ++ X).drop n = X := by
  rw [List.drop_append_of_le_length (by simp), List.drop_replicate]
  simp

/-- Claim C3, corrected.  Both array kinds pack elements in declaration
order, advancing the write cursor by each element's indirect-byte count so
the indirect data lands back-to-back in element order; but the cursor passed
to the elements differs: a `ReferenceArray` passes the running cursor
unchanged (`threadPack`), so the pointers its own element references emit
are absolute offsets from the start of a top-level buffer (third conjunct:
the stored pointer is exactly where the target's packed bytes sit in the
buffer), while a `SimpleArray` of value elements reduces the cursor by the
inline bytes emitted so far (`threadPackRel`, the source's "offset is
relative to element"), making pointers inside its elements
element-relative, not absolute. -/
theorem c3_array_pack_cursor :
    (∀ (et : VType) (w8 : Nat) (fs : Option Nat) (es : List Value) (d0 : Nat),
      pack (.refArr et w8 fs es) (some d0)
        = match threadPack es d0 with
          | none => none
          | some rs =>
              some ((match fs with
                     | none => (rs.map Prod.fst).flatten
                     | some _ =>
                         (rs.map Prod.fst).flatten
                           ++ List.replicate
                               (getImmediateDataSize (.refArr et w8 fs es)
                                 - ((rs.map Prod.fst).flatten).length) 0),
                    (rs.map Prod.snd).flatten))
  ∧ (∀ (et : VType) (w : Nat) (ba : Option Nat) (fs : Option Nat) (es : List Value)
        (d0 : Nat),
      pack (.simpleArrV et w ba fs es) (some d0)
        = match threadPackRel es d0 0 with
          | none => none
          | some rs =>
              some ((match fs with
                     | none => (rs.map Prod.fst).flatten
                     | some _ =>
                         (rs.map Prod.fst).flatten
                           ++ List.replicate
                               (getImmediateDataSize (.simpleArrV et w ba fs es)
                                 - ((rs.map Prod.fst).flatten).length) 0),
                    (rs.map Prod.snd).flatten))
  ∧ (∀ (et : VType) (w8 : Nat) (es : List Value) (rs : List (List Nat × List Nat))
        (k : Nat) (hk : k < es.length) (t : Value) (ta tb : List Nat),
      wfVList es = true →
      (∀ e ∈ es, getImmediateDataSize e = w8) →
      threadPack es (w8 * es.length) = some rs →
      es.get ⟨k, hk⟩ = .ref w8 t →
      pyIsNone t = false →
      pack t none = some (ta, tb) →
      ∃ (buf : List Nat) (hk2 : k < rs.length),
        packTop (.refArr et w8 none es) = some buf ∧
        (rs.get ⟨k, hk2⟩).1
          = packIntLE w8
              (w8 * es.length + (((rs.take k).map fun p => p.2.length).sum)
                + (getAlignment t
                    - (w8 * es.length + (((rs.take k).map fun p => p.2.length).sum))
                      % getAlignment t)
                  % getAlignment t) ∧
        ((buf.drop
            (w8 * es.length + (((rs.take k).map fun p => p.2.length).sum)
              + (getAlignment t
                  - (w8 * es.length + (((rs.take k).map fun p => p.2.length).sum))
                    % getAlignment t)
                % getAlignment t)).take (ta ++ tb).length) = ta ++ tb) := by
  refine ⟨?_, ?_, ?_⟩
  · intro et w8 fs es d0
    rw [pack, packLoop_eq_threadPack]
    cases ht : threadPack es d0 with
    | none => rfl
    | some rs => rcases fs with _ | n <;> simp
  · intro et w ba fs es d0
    rw [pack, packLoop_eq_threadPackRel]
    cases ht : threadPackRel es d0 0 with
    | none => rfl
    | some rs => rcases fs with _ | n <;> simp
  · intro et w8 es rs k hk t ta tb hwf hconst hthread hget hpn hpt
    obtain ⟨hlen, hcur⟩ := threadPack_cursor es (w8 * es.length) rs hthread
    have hk2 : k < rs.length := by omega
    have helem := hcur k hk hk2
    rw [hget] at helem
    simp only [pack, hpn, Bool.false_eq_true, if_neg, hpt] at helem
    have hpair := Option.some.inj helem
    have h1 : (rs.get ⟨k, hk2⟩).1
        = packIntLE w8
            (w8 * es.length + (((rs.take k).map fun p => p.2.length).sum)
              + (getAlignment t
                  - (w8 * es.length + (((rs.take k).map fun p => p.2.length).sum))
                    % getAlignment t)
                % getAlignment t) := by
      rw [← hpair]
    have h2 : (rs.get ⟨k, hk2⟩).2
        = List.replicate
            ((getAlignment t
              - (w8 * es.length + (((rs.take k).map fun p => p.2.length).sum))
                % getAlignment t)
              % getAlignment t) 0 ++ (ta ++ tb) := by
      rw [← hpair]
    -- the packed loop result is the flattened thread result
    have hloop : packLoop es (w8 * es.length) 0 false
        = some ((rs.map Prod.fst).flatten, (rs.map Prod.snd).flatten) := by
      rw [packLoop_eq_threadPack, hthread]
    have hsz : getImmediateDataSize (.refArr et w8 none es) = w8 * es.length := by
      simp [getImmediateDataSize]
    have hbuf : packTop (.refArr et w8 none es)
        = some ((rs.map Prod.fst).flatten ++ (rs.map Prod.snd).flatten) := by
      simp only [packTop, pack, hsz, hloop]
      simp
    have hflatA : ((rs.map Prod.fst).flatten).length = w8 * es.length := by
      rw [packLoop_inline_length es hwf (w8 * es.length) 0 false _ _ hloop,
        immediateSizeList_const es w8 hconst]
    refine ⟨(rs.map Prod.fst).flatten ++ (rs.map Prod.snd).flatten, hk2, hbuf, h1, ?_⟩
    -- positions: drop the inline region, the earlier indirect data, the padding
    have hdropA : ((rs.map Prod.fst).flatten ++ (rs.map Prod.snd).flatten).drop
          (w8 * es.length + (((rs.take k).map fun p => p.2.length).sum)
            + (getAlignment t
                - (w8 * es.length + (((rs.take k).map fun p => p.2.length).sum))
                  % getAlignment t)
              % getAlignment t)
        = ((rs.map Prod.snd).flatten).drop
            ((((rs.take k).map fun p => p.2.length).sum)
              + (getAlignment t
                  - (w8 * es.length + (((rs.take k).map fun p => p.2.length).sum))
                    % getAlignment t)
                % getAlignment t) := by
      rw [← hflatA, Nat.add_assoc, List.drop_append]
    rw [hdropA]
    have hmapmap : ((rs.map Prod.snd).take k).map List.length
        = (rs.take k).map fun p => p.2.length := by
      rw [← List.map_take, List.map_map]
      rfl
    have hdropB : ((rs.map Prod.snd).flatten).drop
          ((((rs.take k).map fun p => p.2.length).sum))
        = ((rs.map Prod.snd).drop k).flatten := by
      rw [← hmapmap, flatten_drop]
    have hdropk : (rs.map Prod.snd).drop k
        = (rs.get ⟨k, hk2⟩).2 :: ((rs.map Prod.snd).drop (k + 1)) := by
      have hk3 : k < (rs.map Prod.snd).length := by simpa using hk2
      rw [List.drop_eq_getElem_cons hk3]
      simp
    rw [List.drop_add, hdropB, hdropk, List.flatten_cons, h2, List.append_assoc,
      drop_replicate_append]
    exact List.take_left _ _

/-- Witness for C3: a top-level two-element reference array of int8 targets;
the second element's pointer is 9 and its target byte indeed sits at buffer
offset 9. -/
theorem c3_witness :
    packTop (.refArr (.primT 1) 4 none [.ref 4 (.prim 1 9), .ref 4 (.prim 1 7)])
        = some [8, 0, 0, 0, 9, 0, 0, 0, 9, 7]
      ∧ (([8, 0, 0, 0, 9, 0, 0, 0, 9, 7].drop 9).take 1 : List Nat) = [7] := by
  obtain ⟨buf, hk2, hbuf, hptr, htgt⟩ :=
    c3_array_pack_cursor.2.2 (.primT 1) 4 [.ref 4 (.prim 1 9), .ref 4 (.prim 1 7)]
      [([8, 0, 0, 0], [9]), ([9, 0, 0, 0], [7])] 1 (by decide) (.prim 1 7) [7] []
      (by decide)
      (by intro e he; fin_cases he <;> rfl)
      (by decide) rfl rfl rfl
  have hdec : packTop (.refArr (.primT 1) 4 none
        [.ref 4 (.prim 1 9), .ref 4 (.prim 1 7)])
      = some [8, 0, 0, 0, 9, 0, 0, 0, 9, 7] := by decide
  have hb : buf = [8, 0, 0, 0, 9, 0, 0, 0, 9, 7] :=
    Option.some.inj (hbuf.symm.trans hdec)
  subst hb
  refine ⟨hbuf, ?_⟩
  simp only [getAlignment] at htgt
  exact htgt

/-- Counterexample to C3 as stated: a top-level `SimpleArray` of two structs,
each holding a reference to a distinct int8.  The second struct's pointer
field (bytes 4..7) decodes to 5, but its target byte `187` sits at absolute
offset 9 — the pointer is relative to the element's start, not an absolute
offset from the start of the buffer. -/
theorem c3_counterexample :
    packTop (.simpleArrV (.strctT "elementStruct0") 4 none none
        [.strct "elementStruct0" [.ref 4 (.prim 1 170)],
         .strct "elementStruct0" [.ref 4 (.prim 1 187)]])
      = some [8, 0, 0, 0, 5, 0, 0, 0, 170, 187]
    ∧ decodeIntLE (([8, 0, 0, 0, 5, 0, 0, 0, 170, 187].drop 4).take 4) = 5
    ∧ [8, 0, 0, 0, 5, 0, 0, 0, 170, 187].getD 9 0 = 187
    ∧ (5 : Nat) ≠ 9 := by
  decide

/-! ### Claim C1 — BitFieldArray packing -/

theorem init_le_foldl_max (l : List Nat) : ∀ a : Nat, a ≤ l.foldl max a := by
  induction l with
  | nil => intro a; exact Nat.le_refl a
  | cons y rest ih =>
      intro a
      calc a ≤ max a y := Nat.le_max_left a y
        _ ≤ rest.foldl max (max a y) := ih (max a y)

theorem le_foldl_max (l : List Nat) : ∀ (a x : Nat), x ∈ l → x ≤ l.foldl max a := by
  induction l with
  | nil => intro a x hx; cases hx
  | cons y rest ih =>
      intro a x hx
      rcases List.mem_cons.mp hx with rfl | hx2
      · calc x ≤ max a x := Nat.le_max_right a x
          _ ≤ rest.foldl max (max a x) := init_le_foldl_max rest (max a x)
      · exact ih (max a y) x hx2

theorem foldl_max_cases (l : List Nat) : ∀ a : Nat, l.foldl max a = a ∨ l.foldl max a ∈ l := by
  induction l with
  | nil => intro a; exact Or.inl rfl
  | cons y rest ih =>
      intro a
      rcases ih (max a y) with h | h
      · rcases Nat.le_total a y with hy | hy
        · right
          rw [List.foldl_cons, h, Nat.max_eq_right hy]
          exact List.mem_cons_self y rest
        · left
          rw [List.foldl_cons, h, Nat.max_eq_left hy]
      · right
        exact List.mem_cons_of_mem y h

theorem decodeIntLE_packIntLE : ∀ (w v : Nat), v < 256 ^ w →
    decodeIntLE (packIntLE w v) = v := by
  intro w
  induction w with
  | zero =>
      intro v hv
      interval_cases v
      rfl
  | succ m ih =>
      intro v hv
      have hrange : List.range (m + 1) = 0 :: (List.range m).map Nat.succ :=
        List.range_succ_eq_map m
      have htail : ((List.range m).map Nat.succ).map (fun i => v / 256 ^ i % 256)
          = (List.range m).map (fun i => v / 256 / 256 ^ i % 256) := by
        rw [List.map_map]
        apply List.map_congr_left
        intro i _
        simp only [Function.comp]
        rw [Nat.pow_succ, Nat.mul_comm (256 ^ i) 256, ← Nat.div_div_eq_div_mul]
      have hdiv : v / 256 < 256 ^ m := by
        rw [Nat.div_lt_iff_lt_mul (by norm_num)]
        calc v < 256 ^ (m + 1) := hv
          _ = 256 ^ m * 256 := by rw [Nat.pow_succ]
      have hcons : ∀ (h : Nat) (t : List Nat),
          decodeIntLE (h :: t) = decodeIntLE t * 256 + h := by
        intro h t
        rfl
      rw [packIntLE, hrange, List.map_cons, htail]
      rw [show ((List.range m).map fun i => v / 256 / 256 ^ i % 256)
            = packIntLE m (v / 256) from rfl]
      rw [hcons, ih (v / 256) hdiv]
      have hhead : v / 256 ^ 0 % 256 = v % 256 := by norm_num
      rw [hhead]
      omega

/-- Extracting chunk `j` from a flattened list of uniform-length chunks. -/
theorem flatten_chunk_slice :
    ∀ (ls : List (List Nat)) (L j : Nat), (∀ l ∈ ls, l.length = L) → j < ls.length →
      (ls.flatten.drop (L * j)).take L = ls.getD j [] := by
  intro ls
  induction ls with
  | nil => intro L j _ hj; cases hj
  | cons c rest ih =>
      intro L j hlen hj
      have hc : c.length = L := hlen c (List.mem_cons_self c rest)
      cases j with
      | zero =>
          rw [Nat.mul_zero, List.drop_zero, List.flatten_cons, ← hc, List.take_left]
          rfl
      | succ m =>
          rw [List.flatten_cons, show L * (m + 1) = c.length + L * m by rw [hc]; ring,
            List.drop_append, List.getD_cons_succ]
          exact ih L m (fun l hl => hlen l (List.mem_cons_of_mem c hl)) (by simpa using hj)

theorem getD_le_one (bits : List Nat) (hb : ∀ b ∈ bits, b ≤ 1) (x : Nat) :
    bits.getD x 0 ≤ 1 := by
  by_cases hx : x < bits.length
  · rw [List.getD_eq_getElem bits 0 hx]
    exact hb _ (List.getElem_mem hx)
  · rw [List.getD_eq_default bits 0 (by omega)]
    norm_num

/-- LSB-first bit extraction from the packed byte stream: bit `k` of the
byte blob is bit `k % 8` of byte `k / 8`. -/
theorem packBitsToChars_bit (bits : List Nat) (hb : ∀ b ∈ bits, b ≤ 1) :
    ∀ k, k < bits.length →
      (packBitsToChars bits).getD (k / 8) 0 / 2 ^ (k % 8) % 2 = bits.getD k 0 := by
  intro k hk
  have hbyte : k / 8 < (bits.length + 7) / 8 := by omega
  have hgd : (packBitsToChars bits).getD (k / 8) 0
      = (List.range 8).foldr (fun i acc => acc * 2 + bits.getD (8 * (k / 8) + i) 0) 0 := by
    rw [packBitsToChars, List.getD_eq_getElem _ 0 (by simpa using hbyte)]
    simp
  have hsplit : k = 8 * (k / 8) + k % 8 := (Nat.div_add_mod k 8).symm
  have hr : k % 8 < 8 := Nat.mod_lt k (by norm_num)
  have hx0 := getD_le_one bits hb (8 * (k / 8) + 0)
  have hx1 := getD_le_one bits hb (8 * (k / 8) + 1)
  have hx2 := getD_le_one bits hb (8 * (k / 8) + 2)
  have hx3 := getD_le_one bits hb (8 * (k / 8) + 3)
  have hx4 := getD_le_one bits hb (8 * (k / 8) + 4)
  have hx5 := getD_le_one bits hb (8 * (k / 8) + 5)
  have hx6 := getD_le_one bits hb (8 * (k / 8) + 6)
  have hx7 := getD_le_one bits hb (8 * (k / 8) + 7)
  rw [hgd, show (List.range 8) = [0, 1, 2, 3, 4, 5, 6, 7] from rfl]
  simp only [List.foldr_cons, List.foldr_nil]
  rw [show bits.getD k 0 = bits.getD (8 * (k / 8) + k % 8) 0 by rw [← hsplit]]
  set r := k % 8 with hrdef
  interval_cases r <;> omega

theorem toBits_getD (v w j : Nat) (hj : j < w) :
    (toBits v w).getD j 0 = v / 2 ^ j % 2 := by
  rw [toBits, List.getD_eq_getElem _ 0 (by simpa using hj)]
  simp

theorem replicate_zero_getD (n m : Nat) : (List.replicate n (0 : Nat)).getD m 0 = 0 := by
  simp [List.getD]

/-- One entry slot's contribution to the data blob (the match inside
`entryBits`). -/
def bfvChunk (p : BFV × Nat) : List Nat :=
  match p.1 with
  | .blob bits => bits ++ List.replicate (p.2 - bits.length) 0
  | .intv n => toBits n p.2

theorem entryBits_eq_chunks (w : List Nat) (entry : List BFV) :
    entryBits w entry = ((entry.zip w).map bfvChunk).flatten := by
  rfl

theorem bfvChunk_length (p : BFV × Nat)
    (h : ∀ bits, p.1 = .blob bits → bits.length ≤ p.2) :
    (bfvChunk p).length = p.2 := by
  rcases p with ⟨v, wf⟩
  cases v with
  | blob bits =>
      have := h bits rfl
      simp only [bfvChunk, List.length_append, List.length_replicate]
      omega
  | intv n => simp [bfvChunk, toBits_length]

theorem bfvChunk_getD (v : BFV) (wf j : Nat) (hj : j < wf) :
    (bfvChunk (v, wf)).getD j 0
      = (match v with
         | .intv n => n / 2 ^ j % 2
         | .blob bits => bits.getD j 0) := by
  cases v with
  | blob bits =>
      dsimp only
      by_cases hx : j < bits.length
      · exact List.getD_append bits _ 0 j hx
      · rw [bfvChunk]
        dsimp only
        rw [List.getD_append_right bits _ 0 j (by omega), replicate_zero_getD,
          List.getD_eq_default bits 0 (by omega)]
  | intv n => exact toBits_getD n wf j hj

theorem entryBits_length : ∀ (entry : List BFV) (w : List Nat),
    entry.length = w.length →
    (∀ p ∈ entry.zip w, ∀ bits, p.1 = .blob bits → bits.length ≤ p.2) →
    (entryBits w entry).length = w.sum := by
  intro entry
  induction entry with
  | nil =>
      intro w hlen _
      have : w = [] := by
        cases w with
        | nil => rfl
        | cons a b => simp at hlen
      subst this
      rfl
  | cons v rest ih =>
      intro w hlen hblob
      cases w with
      | nil => simp at hlen
      | cons wf wrest =>
          have hhead : (bfvChunk (v, wf)).length = wf :=
            bfvChunk_length (v, wf)
              (hblob (v, wf) (by simp [List.zip_cons_cons]))
          have htail := ih wrest (by simpa using hlen)
            (fun p hp => hblob p (by simp [List.zip_cons_cons, hp]))
          rw [entryBits_eq_chunks] at htail ⊢
          simp only [List.zip_cons_cons, List.map_cons, List.flatten_cons,
            List.length_append, List.sum_cons]
          rw [hhead, htail]

theorem getFieldLengths_length (F : Nat) (entries : List (List BFV)) :
    (getFieldLengths F entries).length = F := by
  rw [getFieldLengths]
  split <;> simp

theorem fieldBits_le_getFieldLengths (F : Nat) (entries : List (List BFV))
    (f : Nat) (hf : f < F) :
    ∀ e ∈ entries, fieldBits f e ≤ (getFieldLengths F entries).getD f 0 := by
  intro e he
  have hne : entries ≠ [] := by
    intro h
    subst h
    cases he
  rw [getFieldLengths, if_neg hne,
    List.getD_eq_getElem _ 0 (by simpa using hf)]
  simp only [List.getElem_map, List.getElem_range]
  exact le_foldl_max _ 0 _ (List.mem_map_of_mem (fieldBits f) he)

theorem getFieldLengths_attained (F : Nat) (entries : List (List BFV))
    (f : Nat) (hf : f < F) (hne : entries ≠ []) :
    ∃ e ∈ entries, fieldBits f e = (getFieldLengths F entries).getD f 0 := by
  have hval : (getFieldLengths F entries).getD f 0
      = (entries.map (fieldBits f)).foldl max 0 := by
    rw [getFieldLengths, if_neg hne, List.getD_eq_getElem _ 0 (by simpa using hf)]
    simp
  rcases foldl_max_cases (entries.map (fieldBits f)) 0 with h | h
  · rcases entries with _ | ⟨e0, rest⟩
    · exact absurd rfl hne
    · refine ⟨e0, List.mem_cons_self e0 rest, ?_⟩
      have hle : fieldBits f e0 ≤ (getFieldLengths F (e0 :: rest)).getD f 0 :=
        fieldBits_le_getFieldLengths F (e0 :: rest) f hf e0 (List.mem_cons_self e0 rest)
      rw [hval, h]
      rw [hval, h] at hle
      omega
  · rcases List.mem_map.mp h with ⟨e, he, hfe⟩
    exact ⟨e, he, by rw [hval, hfe]⟩

/-- Every blob stored in an entry is at most the computed field length wide
(the field length is the maximum over all entries). -/
theorem entries_blob_bound (F : Nat) (entries : List (List BFV))
    (hlen : ∀ e ∈ entries, e.length = F) :
    ∀ e ∈ entries, ∀ p ∈ e.zip (getFieldLengths F entries),
      ∀ bits, p.1 = .blob bits → bits.length ≤ p.2 := by
  intro e he p hp bits hb
  have hw : (getFieldLengths F entries).length = F := getFieldLengths_length F entries
  have helen : e.length = F := hlen e he
  rcases List.mem_iff_getElem.mp hp with ⟨i, hi, hpi⟩
  have hizip : i < e.length ∧ i < (getFieldLengths F entries).length := by
    simp only [List.length_zip] at hi
    omega
  have hpe : p = (e.get ⟨i, hizip.1⟩, (getFieldLengths F entries).get ⟨i, hizip.2⟩) := by
    rw [← hpi]
    simp [List.getElem_zip]
  have hfb : fieldBits i e = bits.length := by
    rw [fieldBits, List.getD_eq_getElem _ _ hizip.1]
    rw [hpe] at hb
    simp only at hb
    rw [show e[i] = e.get ⟨i, hizip.1⟩ from rfl, hb]
  have hle := fieldBits_le_getFieldLengths F entries i (by omega) e he
  rw [hfb] at hle
  rw [hpe]
  simp only
  rw [List.getD_eq_getElem _ 0 hizip.2] at hle
  exact hle

theorem entryBits_le_one (w : List Nat) (entry : List BFV)
    (h : ∀ bits, BFV.blob bits ∈ entry → ∀ b ∈ bits, b ≤ 1) :
    ∀ b ∈ entryBits w entry, b ≤ 1 := by
  intro b hb
  rcases List.mem_flatMap.mp hb with ⟨p, hp, hbp⟩
  have hp1 : p.1 ∈ entry := (List.of_mem_zip hp).1
  rcases hq : p.1 with bits | n
  · rw [hq] at hbp
    rcases List.mem_append.mp hbp with hbb | hbr
    · exact h bits (hq ▸ hp1) b hbb
    · rw [List.eq_of_mem_replicate hbr]
      norm_num
  · rw [hq] at hbp
    rcases List.mem_map.mp hbp with ⟨i, _, hbi⟩
    rw [← hbi]
    have := Nat.mod_lt (n / 2 ^ i) (show 0 < 2 by norm_num)
    omega

theorem take_sum_getD_le (w : List Nat) :
    ∀ f, f < w.length → (w.take f).sum + w.getD f 0 ≤ w.sum := by
  induction w with
  | nil => intro f hf; cases hf
  | cons a rest ih =>
      intro f hf
      cases f with
      | zero => simp
      | succ m =>
          have := ih m (by simpa using hf)
          simp only [List.take_succ_cons, List.sum_cons, List.getD_cons_succ]
          omega

/-- Reading bit `prefix_f + j` of one entry's blob bits gives bit `j` of the
entry's field `f`. -/
theorem entryBits_getD : ∀ (entry : List BFV) (w : List Nat) (f j : Nat),
    entry.length = w.length →
    (∀ p ∈ entry.zip w, ∀ bits, p.1 = .blob bits → bits.length ≤ p.2) →
    f < entry.length → j < w.getD f 0 →
    (entryBits w entry).getD ((w.take f).sum + j) 0
      = (match entry.getD f (.intv 0) with
         | .intv v => v / 2 ^ j % 2
         | .blob bits => bits.getD j 0) := by
  intro entry
  induction entry with
  | nil => intro w f j _ _ hf _; exact absurd hf (Nat.not_lt_zero f)
  | cons v rest ih =>
      intro w f j hlen hblob hf hj
      cases w with
      | nil => simp at hlen
      | cons wf wrest =>
          have hhead : (bfvChunk (v, wf)).length = wf :=
            bfvChunk_length (v, wf) (hblob (v, wf) (by simp [List.zip_cons_cons]))
          cases f with
          | zero =>
              rw [entryBits_eq_chunks]
              simp only [List.zip_cons_cons, List.map_cons, List.flatten_cons,
                List.take_zero, List.sum_nil, Nat.zero_add, List.getD_cons_zero]
              have hjw : j < wf := by simpa using hj
              rw [List.getD_append _ _ 0 j (by rw [hhead]; exact hjw)]
              exact bfvChunk_getD v wf j hjw
          | succ m =>
              rw [entryBits_eq_chunks]
              simp only [List.zip_cons_cons, List.map_cons, List.flatten_cons,
                List.take_succ_cons, List.sum_cons, List.getD_cons_succ]
              rw [show wf + (wrest.take m).sum + j = wf + ((wrest.take m).sum + j) by ring,
                List.getD_append_right _ _ 0 _ (by rw [hhead]; omega), hhead,
                Nat.add_sub_cancel_left, ← entryBits_eq_chunks]
              exact ih wrest m j (by simpa using hlen)
                (fun p hp => hblob p (by simp [List.zip_cons_cons, hp]))
                (by simpa using hf) (by simpa using hj)

/-- Reading bit `n * Σw + r` of the whole blob gives bit `r` of entry `n`,
when every entry contributes exactly `Σw` bits. -/
theorem entries_flatMap_getD : ∀ (entries : List (List BFV)) (w : List Nat) (n r : Nat),
    (∀ e ∈ entries, (entryBits w e).length = w.sum) →
    n < entries.length → r < w.sum →
    (entries.flatMap (entryBits w)).getD (n * w.sum + r) 0
      = (entryBits w (entries.getD n [])).getD r 0 := by
  intro entries
  induction entries with
  | nil => intro w n r _ hn; exact absurd hn (Nat.not_lt_zero n)
  | cons e rest ih =>
      intro w n r hlen hn hr
      have hel : (entryBits w e).length = w.sum := hlen e (List.mem_cons_self e rest)
      cases n with
      | zero =>
          rw [List.flatMap_cons, Nat.zero_mul, Nat.zero_add,
            List.getD_append _ _ 0 r (by rw [hel]; exact hr), List.getD_cons_zero]
      | succ m =>
          rw [List.flatMap_cons,
            show (m + 1) * w.sum + r = w.sum + (m * w.sum + r) by ring,
            List.getD_append_right _ _ 0 _ (by rw [hel]; omega), hel,
            Nat.add_sub_cancel_left, List.getD_cons_succ]
          exact ih w m r (fun x hx => hlen x (List.mem_cons_of_mem e hx))
            (by simpa using hn) hr

/-- Claim C1, corrected.  For a `BitFieldArray` with `F` declared fields
and well-formed entries, `pack` returns `(inline, indirect)` with `indirect`
empty and `inline` = header ++ bit-packed blob, where: the header is `F+2`
little-endian 16-bit words; word 0 is the total bits per entry `Σ w_f`;
word `1+i` is the **header bit length `(F+2)*16` plus** the exclusive
prefix-sum of the field widths (i.e. the absolute bit offset, from the start
of the packed output, of field `i` of the first entry) — not the bare
prefix sum measured from the end of the header, as the claim stated; the
blob holds `N·Σw_f` bits rounded up to a whole byte; each per-field width
`w_f` is the maximum over all entries of the bits required for the field's
value (blob bit length for blob fields); entries are packed back-to-back in
declaration order, LSB-first, zero-padded to `w_f` bits. -/
theorem c1_bitFieldArray_pack (nm : String) (F : Nat) (entries : List (List BFV))
    (d : Option Nat)
    (hlen : ∀ e ∈ entries, e.length = F)
    (hbit : ∀ e ∈ entries, ∀ bits, BFV.blob bits ∈ e → ∀ b ∈ bits, b ≤ 1) :
    pack (.bfArray nm F entries) d
        = some (((bfaHeaderValues F (getFieldLengths F entries)).flatMap (packIntLE 2))
            ++ packBitsToChars
                (entries.flatMap (entryBits (getFieldLengths F entries))), [])
  ∧ ((bfaHeaderValues F (getFieldLengths F entries)).flatMap (packIntLE 2)).length
      = 2 * (F + 2)
  ∧ (bfaHeaderValues F (getFieldLengths F entries)).getD 0 0
      = (getFieldLengths F entries).sum
  ∧ (∀ i, i < F + 1 →
      (bfaHeaderValues F (getFieldLengths F entries)).getD (i + 1) 0
        = (F + 2) * 16 + ((getFieldLengths F entries).take i).sum)
  ∧ (∀ j, j < F + 2 →
      (∀ x ∈ bfaHeaderValues F (getFieldLengths F entries), x < 2 ^ 16) →
      decodeIntLE
          ((((bfaHeaderValues F (getFieldLengths F entries)).flatMap
              (packIntLE 2)).drop (2 * j)).take 2)
        = (bfaHeaderValues F (getFieldLengths F entries)).getD j 0)
  ∧ (packBitsToChars (entries.flatMap (entryBits (getFieldLengths F entries)))).length
      = ((getFieldLengths F entries).sum * entries.length + 7) / 8
  ∧ (∀ f, f < F →
      (∀ e ∈ entries, fieldBits f e ≤ (getFieldLengths F entries).getD f 0)
      ∧ (entries ≠ [] →
          ∃ e ∈ entries, fieldBits f e = (getFieldLengths F entries).getD f 0))
  ∧ (∀ n f j, n < entries.length → f < F →
      j < (getFieldLengths F entries).getD f 0 →
      (packBitsToChars (entries.flatMap (entryBits (getFieldLengths F entries)))).getD
          ((n * (getFieldLengths F entries).sum
              + ((getFieldLengths F entries).take f).sum + j) / 8) 0
          / 2 ^ ((n * (getFieldLengths F entries).sum
              + ((getFieldLengths F entries).take f).sum + j) % 8) % 2
        = (match (entries.getD n []).getD f (.intv 0) with
           | .intv v => v / 2 ^ j % 2
           | .blob bits => bits.getD j 0)) := by
  have hw : (getFieldLengths F entries).length = F := getFieldLengths_length F entries
  have hblob := entries_blob_bound F entries hlen
  have hentry : ∀ e ∈ entries, (entryBits (getFieldLengths F entries) e).length
      = (getFieldLengths F entries).sum := fun e he =>
    entryBits_length e _ (by rw [hlen e he, hw]) (hblob e he)
  have hguard : (entries.flatMap (entryBits (getFieldLengths F entries))).length
      = (getFieldLengths F entries).sum * entries.length :=
    length_flatMap_const entries _ _ hentry
  refine ⟨?_, ?_, rfl, ?_, ?_, ?_, ?_, ?_⟩
  · simp only [pack]
    rw [if_pos hguard]
  · rw [length_flatMap_const _ (packIntLE 2) 2 (fun x _ => packIntLE_length 2 x)]
    simp [bfaHeaderValues]
  · intro i hi
    rw [bfaHeaderValues, List.getD_cons_succ,
      List.getD_eq_getElem _ 0 (by simpa using hi)]
    simp
  · intro j hj hbound
    have hlenhv : (bfaHeaderValues F (getFieldLengths F entries)).length = F + 2 := by
      simp [bfaHeaderValues]
    have hchunks : ∀ l ∈ (bfaHeaderValues F (getFieldLengths F entries)).map (packIntLE 2),
        l.length = 2 := by
      intro l hl
      rcases List.mem_map.mp hl with ⟨x, _, hx⟩
      rw [← hx, packIntLE_length]
    have hslice := flatten_chunk_slice
      ((bfaHeaderValues F (getFieldLengths F entries)).map (packIntLE 2)) 2 j hchunks
      (by rw [List.length_map, hlenhv]; exact hj)
    rw [show (bfaHeaderValues F (getFieldLengths F entries)).flatMap (packIntLE 2)
        = ((bfaHeaderValues F (getFieldLengths F entries)).map (packIntLE 2)).flatten
        from rfl, hslice]
    have hj2 : j < (bfaHeaderValues F (getFieldLengths F entries)).length := by omega
    rw [List.getD_eq_getElem _ [] (by simpa using hj2), List.getElem_map,
      List.getD_eq_getElem _ 0 hj2]
    apply decodeIntLE_packIntLE
    have hmem := List.getElem_mem hj2
    have := hbound _ hmem
    norm_num at this ⊢
    exact this
  · rw [packBitsToChars_length, hguard]
  · intro f hf
    exact ⟨fieldBits_le_getFieldLengths F entries f hf,
      getFieldLengths_attained F entries f hf⟩
  · intro n f j hn hf hj
    have hb1 : ∀ b ∈ entries.flatMap (entryBits (getFieldLengths F entries)), b ≤ 1 := by
      intro b hb
      rcases List.mem_flatMap.mp hb with ⟨e, he, hbe⟩
      exact entryBits_le_one _ e (fun bits hbits => hbit e he bits hbits) b hbe
    have h1 : ((getFieldLengths F entries).take f).sum
        + (getFieldLengths F entries).getD f 0 ≤ (getFieldLengths F entries).sum :=
      take_sum_getD_le _ f (by omega)
    have h3 : ((getFieldLengths F entries).take f).sum + j
        < (getFieldLengths F entries).sum := by omega
    have hpos : n * (getFieldLengths F entries).sum
        + ((getFieldLengths F entries).take f).sum + j
        < (entries.flatMap (entryBits (getFieldLengths F entries))).length := by
      rw [hguard]
      calc n * (getFieldLengths F entries).sum
            + ((getFieldLengths F entries).take f).sum + j
          < n * (getFieldLengths F entries).sum + (getFieldLengths F entries).sum := by
            omega
        _ = (n + 1) * (getFieldLengths F entries).sum := by ring
        _ ≤ entries.length * (getFieldLengths F entries).sum :=
            Nat.mul_le_mul_right _ hn
        _ = (getFieldLengths F entries).sum * entries.length := Nat.mul_comm _ _
    rw [packBitsToChars_bit _ hb1 _ hpos,
      show n * (getFieldLengths F entries).sum
          + ((getFieldLengths F entries).take f).sum + j
        = n * (getFieldLengths F entries).sum
          + (((getFieldLengths F entries).take f).sum + j) by ring,
      entries_flatMap_getD entries _ n _ hentry hn h3]
    have hmem : entries.getD n [] ∈ entries := by
      rw [List.getD_eq_getElem _ _ hn]
      exact List.getElem_mem hn
    exact entryBits_getD (entries.getD n []) _ f j
      (by rw [hlen _ hmem, hw]) (hblob _ hmem)
      (by rw [hlen _ hmem]; exact hf) hj

/-- Witness for C1: the sources' `PairBitArray` test (2 fields, entries
`[0,12], [0,4], [0,0], [0,63]`): field widths 0 and 6, header words
`[6, 64, 64, 70]`, data bytes `[12, 1, 252]`. -/
theorem c1_witness :
    pack (.bfArray "PairBitArray" 2 [[.intv 0, .intv 12], [.intv 0, .intv 4],
        [.intv 0, .intv 0], [.intv 0, .intv 63]]) (some 0)
      = some ([6, 0, 64, 0, 64, 0, 70, 0, 12, 1, 252], []) := by
  have h := c1_bitFieldArray_pack "PairBitArray" 2
    [[.intv 0, .intv 12], [.intv 0, .intv 4], [.intv 0, .intv 0], [.intv 0, .intv 63]]
    (some 0) (by decide)
    (by intro e he bits hmem; fin_cases he <;> simp at hmem)
  exact h.1.trans (by decide)

/-- Counterexample to C1 as stated: a one-field array with the single entry
`[1]`.  Header word 1 (bytes 2..3) holds 48 — the header bit length
`(1+2)*16` plus the exclusive prefix sum 0 — whereas "the exclusive
prefix-sum bit offset of the field within an entry measured from the end of
the header" would be 0. -/
theorem c1_counterexample :
    pack (.bfArray "BitBitArray" 1 [[.intv 1]]) (some 0)
      = some ([1, 0, 48, 0, 49, 0, 1], [])
    ∧ decodeIntLE (([1, 0, 48, 0, 49, 0, 1].drop 2).take 2) = 48
    ∧ ((getFieldLengths 1 [[.intv 1]]).take 0).sum = 0
    ∧ (48 : Nat) ≠ 0 := by
  decide

end NamedStruct
